import Mathlib

set_option maxRecDepth 40000

/-!
Verification of the Monoplasma / data-union-server core against its
natural-language specification.

The development shallowly embeds the JavaScript sources:

* `src/merkletree/api.js` — keccak-256 based Merkle tree (leaf hashing via
  ethers.js `keccak256`, sibling-sorted branch hashing, array layout,
  path extraction);
* `src/member.js` — `MonoplasmaMember` (address validation via web3
  `isAddress`, revenue accrual, proof requests);
* `src/watcher.js` — `summarizeBlock` and the guard section of
  `playbackUntilBlock` / cache pruning;
* `src/routers/communities.js` — `blockToApiObject`.

Byte strings are `List Nat` (each element < 256).  The keccak-256
permutation is embedded executably so that concrete digests can be
evaluated by the kernel.  JavaScript control flow that can throw or hang
is modelled with explicit outcome types; loops whose iteration count the
source bounds only dynamically are given explicit fuel, together with
lemmas showing the fuel is irrelevant on the inputs in question.
-/

namespace DataUnion

/-! ## Keccak-256 (the pre-NIST padding variant used by the EVM)

Embeds the `js-sha3` keccak_256 function that ethers.js v4 /web3 call
under the hood.  State is 25 lanes of 64 bits, stored as a `List Nat`
(index `x + 5*y`); message bytes are absorbed 136 at a time
(little-endian within each 8-byte lane), with multi-rate padding
`0x01 .. 0x80`. -/

/-- Mask to 64 bits. -/
def mask64 (x : Nat) : Nat := x % (2 ^ 64)

/-- Rotate a 64-bit lane left by `n` (0 ≤ n < 64). -/
def rotl64 (x n : Nat) : Nat := mask64 ((x <<< n) ||| (x >>> (64 - n)))

/-- Bitwise complement of a 64-bit lane. -/
def not64 (x : Nat) : Nat := 0xFFFFFFFFFFFFFFFF ^^^ x

/-- The 24 keccak-f round constants. -/
def keccakRC : List Nat :=
  [0x0000000000000001, 0x0000000000008082, 0x800000000000808a, 0x8000000080008000,
   0x000000000000808b, 0x0000000080000001, 0x8000000080008081, 0x8000000000008009,
   0x000000000000008a, 0x0000000000000088, 0x0000000080008009, 0x000000008000000a,
   0x000000008000808b, 0x800000000000008b, 0x8000000000008089, 0x8000000000008003,
   0x8000000000008002, 0x8000000000000080, 0x000000000000800a, 0x800000008000000a,
   0x8000000080008081, 0x8000000000008080, 0x0000000080000001, 0x8000000080008008]

/-- Rotation offsets, indexed by lane position `x + 5*y`. -/
def keccakRho : List Nat :=
  [[0, 1, 62, 28, 27],
   [36, 44, 6, 55, 20],
   [3, 10, 43, 25, 39],
   [41, 45, 15, 21, 8],
   [18, 2, 61, 56, 14]].flatten

/-- XOR of the five lanes in column `x`. -/
def keccakColParity (st : List Nat) (x : Nat) : Nat :=
  (st.getD x 0) ^^^ (st.getD (x + 5) 0) ^^^ (st.getD (x + 10) 0) ^^^
  (st.getD (x + 15) 0) ^^^ (st.getD (x + 20) 0)

/-- Theta step. -/
def keccakTheta (st : List Nat) : List Nat :=
  let C := (List.range 5).map (keccakColParity st)
  let D := (List.range 5).map
    (fun x => (C.getD ((x + 4) % 5) 0) ^^^ rotl64 (C.getD ((x + 1) % 5) 0) 1)
  (List.range 25).map (fun i => (st.getD i 0) ^^^ (D.getD (i % 5) 0))

/-- Combined rho-and-pi step: lane `(x,y)` moves, rotated, to `(y, 2x+3y mod 5)`. -/
def keccakRhoPi (st : List Nat) : List Nat :=
  (List.range 25).map (fun j =>
    let a := j % 5
    let b := j / 5
    let src := (a + 3 * b) % 5 + 5 * a
    rotl64 (st.getD src 0) (keccakRho.getD src 0))

/-- Chi step. -/
def keccakChi (st : List Nat) : List Nat :=
  (List.range 25).map (fun j =>
    let x := j % 5
    let y := j / 5
    (st.getD j 0) ^^^
      ((not64 (st.getD ((x + 1) % 5 + 5 * y) 0)) &&& (st.getD ((x + 2) % 5 + 5 * y) 0)))

/-- One keccak-f round with round constant `rc`. -/
def keccakRound (st : List Nat) (rc : Nat) : List Nat :=
  let st' := keccakChi (keccakRhoPi (keccakTheta st))
  st'.set 0 ((st'.getD 0 0) ^^^ rc)

/-- The keccak-f[1600] permutation: 24 rounds. -/
def keccakF (st : List Nat) : List Nat := keccakRC.foldl keccakRound st

/-- Little-endian: 8 bytes to one 64-bit lane. -/
def bytesToLane (bs : List Nat) : Nat := bs.foldr (fun b acc => acc * 256 + b) 0

/-- Little-endian: one 64-bit lane to 8 bytes. -/
def laneToBytes (x : Nat) : List Nat := (List.range 8).map (fun i => (x >>> (8 * i)) % 256)

/-- Absorb one 136-byte block into the state and permute. -/
def keccakAbsorb (st : List Nat) (block : List Nat) : List Nat :=
  keccakF ((List.range 25).map (fun i =>
    (st.getD i 0) ^^^ (if i < 17 then bytesToLane ((block.drop (8 * i)).take 8) else 0)))

/-- Original keccak multi-rate padding for rate 136: append 0x01, zeros, 0x80
(a single 0x81 when only one byte is free). -/
def keccakPad (msg : List Nat) : List Nat :=
  let padLen := 136 - msg.length % 136
  if padLen = 1 then msg ++ [0x81]
  else msg ++ [0x01] ++ List.replicate (padLen - 2) 0 ++ [0x80]

/-- Split a list into chunks of 136 bytes (structural recursion on a fuel
that is always sufficient, so the kernel can evaluate digests). -/
def chunksGo : Nat → List Nat → List (List Nat)
  | 0, _ => []
  | fuel + 1, l => if l = [] then [] else l.take 136 :: chunksGo fuel (l.drop 136)

/-- Split a list into chunks of 136 bytes. -/
def chunks136 (l : List Nat) : List (List Nat) := chunksGo (l.length / 136 + 1) l

/-- Keccak-256 of a byte string: 32-byte digest. -/
def keccak256 (msg : List Nat) : List Nat :=
  let st := (chunks136 (keccakPad msg)).foldl keccakAbsorb (List.replicate 25 0)
  ((List.range 4).map (fun i => laneToBytes (st.getD i 0))).flatten

/-! ## Hex characters and strings -/

/-- Lowercase hex digit for a value below 16. -/
def hexDigitChar (n : Nat) : Char := "0123456789abcdef".data.getD n '?'

/-- Numeric value of a hex digit (as JavaScript `parseInt(c, 16)` on a valid digit). -/
def hexVal (c : Char) : Nat :=
  if c.isDigit then c.toNat - '0'.toNat
  else if 'a' ≤ c ∧ c ≤ 'f' then c.toNat - 'a'.toNat + 10
  else if 'A' ≤ c ∧ c ≤ 'F' then c.toNat - 'A'.toNat + 10
  else 0

/-- Character class `[0-9a-fA-F]`. -/
def isHexDigitCI (c : Char) : Bool := c.isDigit || ('a' ≤ c && c ≤ 'f') || ('A' ≤ c && c ≤ 'F')

/-- Character class `[0-9a-f]`. -/
def isHexDigitLower (c : Char) : Bool := c.isDigit || ('a' ≤ c && c ≤ 'f')

/-- Character class `[0-9A-F]`. -/
def isHexDigitUpper (c : Char) : Bool := c.isDigit || ('A' ≤ c && c ≤ 'F')

/-- Decode consecutive pairs of hex digits into bytes
(ethers v4 `arrayify` does `parseInt(value.substr(i, 2), 16)`). -/
def decodePairs : List Char → List Nat
  | c1 :: c2 :: rest => (hexVal c1 * 16 + hexVal c2) :: decodePairs rest
  | _ => []

/-- The ethers.js v4 `utils.arrayify` conversion applied to a string argument:
the string must match `^(0x)?[0-9a-fA-F]*$` and carry the `0x` prefix
(case-sensitively), otherwise ethers throws (`none`); an odd-length hex body is
left-padded with one `0`. -/
def arrayify (s : String) : Option (List Nat) :=
  let cs := s.data
  if cs.take 2 = ['0', 'x'] ∧ (cs.drop 2).all isHexDigitCI then
    let hx := cs.drop 2
    some (decodePairs (if hx.length % 2 = 1 then '0' :: hx else hx))
  else none

/-! ## merkletree/api.js : hashing primitives -/

/-- The `hash` helper of `src/merkletree/api.js` applied to a `String` argument:
ethers v4 `keccak256` arrayifies its argument, so a string is interpreted as
`0x`-prefixed hex bytes — never as UTF-8 text — and a non-hex string throws. -/
def hashString (data : String) : Option (List Nat) := (arrayify data).map keccak256

/-- The `hash` helper of `src/merkletree/api.js` applied to a `Buffer` argument. -/
def hashBytes (data : List Nat) : List Nat := keccak256 data

/-- Node `Buffer.compare`: lexicographic on bytes, a strict prefix is smaller. -/
def bufCompare : List Nat → List Nat → Ordering
  | [], [] => .eq
  | [], _ :: _ => .lt
  | _ :: _, [] => .gt
  | a :: as, b :: bs => if a < b then .lt else if b < a then .gt else bufCompare as bs

/-- The `hashCombined` helper of `src/merkletree/api.js` on `Buffer` arguments:
keccak-256 of the concatenation. -/
def hashCombined (data1 data2 : List Nat) : List Nat := keccak256 (data1 ++ data2)

/-- The branch-hash expression of `buildMerkleTree`:
`(hash1.compare(hash2) === -1) ? hashCombined(hash1, hash2) : hashCombined(hash2, hash1)`. -/
def parentHash (hash1 hash2 : List Nat) : List Nat :=
  if bufCompare hash1 hash2 = .lt then hashCombined hash1 hash2 else hashCombined hash2 hash1

/-! ## BN.js rendering (member earnings as hex) -/

/-- Minimal big-endian hex digits of `n` (empty for 0); fuel 512 covers all
numbers below `16 ^ 512`. -/
def hexRepGo : Nat → Nat → List Char
  | 0, _ => []
  | fuel + 1, n => if n = 0 then [] else hexRepGo fuel (n / 16) ++ [hexDigitChar (n % 16)]

/-- BN.js `toString(16)`: minimal lowercase hex, with `"0"` for zero. -/
def hexRep (n : Nat) : List Char := if n = 0 then ['0'] else hexRepGo 512 n

/-- BN.js `toString(16, padding)`: zero-pad on the left until the length is a
multiple of `padding`; a minus sign is prepended after padding. -/
def bnToHexPadded (e : Int) (padding : Nat) : String :=
  let digits := hexRep e.natAbs
  let r := digits.length % padding
  let padded := if r = 0 then digits else List.replicate (padding - r) '0' ++ digits
  ⟨if e < 0 then '-' :: padded else padded⟩

/-! ## member.js : MonoplasmaMember -/

/-- A `MonoplasmaMember` value: address string as stored, earnings as the BN
(signed, arbitrary precision). -/
structure MonoplasmaMember where
  name : String
  address : String
  earnings : Int
  active : Bool
deriving DecidableEq, Repr

/-- Strip one leading `0x` or `0X`: the optional group `(0x)?` under the `i`
flag in web3 1.x's basic address regex, and the explicit `(0x|0X)?`
alternative in its two uniform-case fast-path regexes. -/
def strip0xCI (cs : List Char) : List Char :=
  if cs.take 2 = ['0', 'x'] ∨ cs.take 2 = ['0', 'X'] then cs.drop 2 else cs

/-- web3 regex `/^(0x)?[0-9a-f]{40}$/i`. -/
def regexAddrCI (s : String) : Bool :=
  let t := strip0xCI s.data
  (t.length == 40) && t.all isHexDigitCI

/-- web3 regex `/^(0x|0X)?[0-9a-f]{40}$/`. -/
def regexAddrLower (s : String) : Bool :=
  let t := strip0xCI s.data
  (t.length == 40) && t.all isHexDigitLower

/-- web3 regex `/^(0x|0X)?[0-9A-F]{40}$/`. -/
def regexAddrUpper (s : String) : Bool :=
  let t := strip0xCI s.data
  (t.length == 40) && t.all isHexDigitUpper

/-- web3 `checkAddressChecksum`: keccak-256 of the lowercased 40-char body
(hashed as a UTF-8 string by web3 `sha3`), then every hash hex digit above 7
must correspond to an uppercase letter and every digit of 7 or below to a
lowercase one (digits `0-9` of the address pass both cases trivially). -/
def checkAddressChecksum (s : String) : Bool :=
  let address := strip0xCI s.data
  let lower := address.map Char.toLower
  let addressHash := (keccak256 (lower.map Char.toNat)).flatMap
    (fun b => [hexDigitChar (b / 16), hexDigitChar (b % 16)])
  (List.range 40).all (fun i =>
    let hv := hexVal (addressHash.getD i '0')
    let c := address.getD i '0'
    !((decide (7 < hv) && (c.toUpper != c)) || (decide (hv ≤ 7) && (c.toLower != c))))

/-- web3 `utils.isAddress`. -/
def isAddress (s : String) : Bool :=
  if !(regexAddrCI s) then false
  else if regexAddrLower s || regexAddrUpper s then true
  else checkAddressChecksum s

/-- The `0x`-extension step of `MonoplasmaMember.validateAddress`:
a 40-character input gets `0x` prepended, all others pass through. -/
def extendAddress (address : String) : String :=
  if address.length = 40 then "0x" ++ address else address

/-- `MonoplasmaMember.validateAddress`: extend, test with web3 `isAddress`,
throw (`none`) on failure, and return the extended input verbatim otherwise. -/
def validateAddress (address : String) : Option String :=
  let extended := extendAddress address
  if isAddress extended then some extended else none

/-- The `MonoplasmaMember` constructor: `name || ""`, validated address,
`earnings ? new BN(earnings) : new BN(0)`, `!!active`. -/
def mkMember (name : Option String) (address : String) (earnings : Int) (active : Bool) :
    Option MonoplasmaMember :=
  (validateAddress address).map (fun a =>
    { name := name.getD "", address := a, earnings := earnings, active := active })

/-- `MonoplasmaMember.addRevenue`: `this.earnings = this.earnings.add(new BN(amount))` —
no sign check, no error path. -/
def MonoplasmaMember.addRevenue (m : MonoplasmaMember) (amount : Int) : MonoplasmaMember :=
  { m with earnings := m.earnings + amount }

/-- The `hashLeaf` function of `src/merkletree/api.js`:
`hash(blockNumber + member.address + new BN(member.earnings).toString(16, 64))`.
String concatenation hands the result to ethers `keccak256`, which decodes it
as hex bytes (see `hashString`). -/
def hashLeaf (m : MonoplasmaMember) (blockNumber : String) : Option (List Nat) :=
  hashString (blockNumber ++ m.address ++ bnToHexPadded m.earnings 64)

/-! ## merkletree/api.js : roundUpToPowerOfTwo

JavaScript `<<=` is a 32-bit signed shift, so the loop `while (i < x) i <<= 1`
wraps `2^30 <<= 1` to `-2^31` and then to `0`, never terminating for
`2^30 < x ≤ 2^32`; the guard only fires above `2^32` (`MAX_POW_2`).  The loop
is modelled with explicit fuel, `none` standing for non-termination within the
fuel; fuel 64 is shown adequate where it matters. -/

/-- JavaScript ToInt32 (the coercion applied by `<<`). -/
def toInt32 (n : Int) : Int := (n + 2 ^ 31) % 2 ^ 32 - 2 ^ 31

/-- The `while (i < x) { i <<= 1 }` loop of `roundUpToPowerOfTwo`. -/
def rupLoop : Nat → Int → Int → Option Int
  | 0, _, _ => none
  | fuel + 1, i, x => if i < x then rupLoop fuel (toInt32 (i * 2)) x else some i

/-- Errors thrown by the embedded JavaScript functions. -/
inductive JsErr
  /-- the `Number too big` guard of `roundUpToPowerOfTwo` -/
  | numberTooBig
  /-- ethers v4 `arrayify` rejecting a non-hex string -/
  | invalidArrayish
  /-- the `Can't construct a MerkleTree with empty contents!` throw -/
  | emptyContents
  /-- the `Address ... not found!` throw of `getPath` -/
  | notFound (address : String)
  /-- a TypeError from calling a Buffer method on a non-Buffer -/
  | typeError
deriving DecidableEq, Repr

/-- Outcome of running a piece of JavaScript: normal return, thrown error, or
an infinite loop. -/
inductive JsOutcome (α : Type)
  | hangs
  | threw (e : JsErr)
  | ok (val : α)
deriving DecidableEq, Repr

/-- The `roundUpToPowerOfTwo` function of `src/merkletree/api.js`, including
its ineffective `x > 2^32` guard and the possibility of looping forever. -/
def roundUpToPowerOfTwo (x : Int) : JsOutcome Int :=
  if x > 2 ^ 32 then .threw .numberTooBig
  else match rupLoop 64 1 x with
    | some i => .ok i
    | none => .hangs

/-! ## merkletree/api.js : buildMerkleTree -/

/-- One entry of the JavaScript `hashes` array: a hole (`new Array(treeSize)`),
the `branchCount` number stored at index 0, or a 32-byte digest Buffer. -/
inductive Slot
  | undef
  | num (n : Nat)
  | buf (b : List Nat)
deriving DecidableEq, Repr

/-- The JavaScript object `indexOf`, used purely as a string-keyed dictionary
(it is only ever read back by key, never iterated), modelled extensionally. -/
def ObjMap : Type := String → Option Nat

/-- The empty object `{}`. -/
def objEmpty : ObjMap := fun _ => none

/-- JavaScript object property read. -/
def objGet (o : ObjMap) (k : String) : Option Nat := o k

/-- JavaScript object property write (overwrites an existing key). -/
def objSet (o : ObjMap) (k : String) (v : Nat) : ObjMap :=
  fun k' => if k' = k then some v else o k'

/-- The leaf loop of `buildMerkleTree`: `indexOf[m.address] = i;
hashes[i++] = hashLeaf(m, "")` — `none` if a leaf hash throws. -/
def placeLeaves : List MonoplasmaMember → Nat → List Slot → ObjMap →
    Option (List Slot × ObjMap)
  | [], _, hashes, indexOf => some (hashes, indexOf)
  | m :: ms, i, hashes, indexOf =>
    match hashLeaf m "" with
    | none => none
    | some h => placeLeaves ms (i + 1) (hashes.set i (.buf h)) (objSet indexOf m.address i)

/-- The inner `while (sourceI < endI)` loop of the branch-hash pass: combine
adjacent pairs; stop at the first hole; an odd tail gets a 32-byte zero sibling
and is copied up verbatim.  (A `.num` child cannot occur: the only `.num`
slot is index 0 and `sourceI` stays at or above 2; JavaScript would throw
calling `.compare` on it, and the model just stops.) -/
def levelPass : Nat → List Slot → Nat → Nat → Nat → List Slot
  | 0, hashes, _, _, _ => hashes
  | fuel + 1, hashes, sourceI, targetI, endI =>
    if sourceI < endI then
      match hashes.getD sourceI .undef with
      | .undef => hashes
      | .num _ => hashes
      | .buf h1 =>
        match hashes.getD (sourceI + 1) .undef with
        | .buf h2 =>
          levelPass fuel (hashes.set targetI (.buf (parentHash h1 h2))) (sourceI + 2)
            (targetI + 1) endI
        | _ => (hashes.set (sourceI + 1) (.buf (List.replicate 32 0))).set targetI (.buf h1)
    else hashes

/-- The outer `for (let startI = branchCount, endI = treeSize; startI > 1;
endI = startI, startI >>= 1)` loop of `buildMerkleTree`. -/
def buildLevels : Nat → List Slot → Nat → Nat → List Slot
  | 0, hashes, _, _ => hashes
  | fuel + 1, hashes, startI, endI =>
    if 1 < startI then
      buildLevels fuel (levelPass (endI - startI + 1) hashes startI (startI >>> 1) endI)
        (startI >>> 1) startI
    else hashes

/-- The result record of `buildMerkleTree`: the `hashes` array (index 0 holds
`branchCount`) and the address-to-leaf-slot map. -/
structure MTree where
  hashes : List Slot
  indexOf : ObjMap

/-- The `buildMerkleTree` function of `src/merkletree/api.js`. -/
def buildMerkleTree (leafContents : List MonoplasmaMember) : JsOutcome MTree :=
  let leafCount := leafContents.length + leafContents.length % 2
  match roundUpToPowerOfTwo (leafCount : Int) with
  | .hangs => .hangs
  | .threw e => .threw e
  | .ok bc =>
    let branchCount := bc.toNat
    let treeSize := branchCount + leafCount
    let hashes0 := (List.replicate treeSize Slot.undef).set 0 (.num branchCount)
    match placeLeaves leafContents branchCount hashes0 objEmpty with
    | none => .threw .invalidArrayish
    | some (hashes, indexOf) =>
      .ok ⟨buildLevels 64 hashes branchCount treeSize, indexOf⟩

/-! ## merkletree/api.js : MerkleTree class (getContents, getPath, getRootHash) -/

/-- `MerkleTree.getContents` for a tree freshly constructed over `contents`:
empty contents throw, otherwise the tree is (re)built.  The JavaScript caching
(`isDirty`) is semantically invisible because the build is pure. -/
def getContents (contents : List MonoplasmaMember) : JsOutcome MTree :=
  if contents.length = 0 then .threw .emptyContents
  else buildMerkleTree contents

/-- The path-collection loop of `getPath`:
`for (let i = index; i > 1; i >>= 1) path.push(hashes[i ^ 1])`. -/
def pathLoop : Nat → Nat → List Slot → List Slot
  | 0, _, _ => []
  | fuel + 1, i, hashes =>
    if 1 < i then hashes.getD (i ^^^ 1) .undef :: pathLoop fuel (i >>> 1) hashes else []

/-- Lowercase hex rendering of a byte list (Node `buffer.toString("hex")`). -/
def bytesToHex (b : List Nat) : List Char :=
  b.flatMap (fun x => [hexDigitChar (x / 16 % 16), hexDigitChar (x % 16)])

/-- The final `path.map(buffer => "0x" + buffer.toString("hex"))` step of
`getPath`; a non-Buffer slot would make JavaScript throw a TypeError. -/
def slotToHex : Slot → Option String
  | .buf b => some ⟨'0' :: 'x' :: bytesToHex b⟩
  | _ => none

/-- Total variant of `slotToHex`, for stating what a successful path equals. -/
def slotHexStr (s : Slot) : String := (slotToHex s).getD ""

/-- `MerkleTree.getPath` over a tree freshly constructed from `contents`:
look up the leaf slot (`if (!index) throw` — both a missing key and the
impossible slot 0 are falsy), then collect the sibling hashes up to the root
and hex-encode them. -/
def getPath (contents : List MonoplasmaMember) (address : String) : JsOutcome (List String) :=
  match getContents contents with
  | .hangs => .hangs
  | .threw e => .threw e
  | .ok t =>
    match objGet t.indexOf address with
    | none => .threw (.notFound address)
    | some index =>
      if index = 0 then .threw (.notFound address)
      else
        match (pathLoop 64 index t.hashes).mapM slotToHex with
        | none => .threw .typeError
        | some path => .ok path

/-- `MerkleTree.getRootHash` over a tree freshly constructed from `contents`. -/
def getRootHash (contents : List MonoplasmaMember) : JsOutcome String :=
  match getContents contents with
  | .hangs => .hangs
  | .threw e => .threw e
  | .ok t =>
    match t.hashes.getD 1 .undef with
    | .buf b => .ok ⟨'0' :: 'x' :: bytesToHex b⟩
    | _ => .threw .typeError

/-- `MonoplasmaMember.getProof`: a member with positive earnings asks the tree
for the path to its address; otherwise the empty path is returned without
consulting the tree. -/
def MonoplasmaMember.getProof (m : MonoplasmaMember) (treeContents : List MonoplasmaMember) :
    JsOutcome (List String) :=
  if 0 < m.earnings then getPath treeContents m.address else .ok []

/-! ## watcher.js : block summaries and the playback guard -/

/-- A block value as the stats endpoints see it: every field may be absent
(`Option`), mirroring the `|| 0` / `!block.members` fallbacks. -/
structure JsBlock where
  blockNumber : Option Int
  timestamp : Option Int
  members : Option (List MonoplasmaMember)
  totalEarnings : Option Int
deriving DecidableEq, Repr

/-- The record returned by `summarizeBlock` / `blockToApiObject`. -/
structure BlockSummary where
  blockNumber : Int
  timestamp : Int
  memberCount : Nat
  totalEarnings : Int
deriving DecidableEq, Repr

/-- The `summarizeBlock` helper of `src/watcher.js`: a missing block or a block
without a `members` field is replaced wholesale by `{ members: [] }` (so every
field reads 0), otherwise each absent field falls back to 0 and `memberCount`
is the length of `members`. -/
def summarizeBlock (block : Option JsBlock) : BlockSummary :=
  match block with
  | none => { blockNumber := 0, timestamp := 0, memberCount := 0, totalEarnings := 0 }
  | some b =>
    match b.members with
    | none => { blockNumber := 0, timestamp := 0, memberCount := 0, totalEarnings := 0 }
    | some ms =>
      { blockNumber := b.blockNumber.getD 0
        timestamp := b.timestamp.getD 0
        memberCount := ms.length
        totalEarnings := b.totalEarnings.getD 0 }

/-- The `blockToApiObject` helper of `src/routers/communities.js` — textually
the same fallback logic as `summarizeBlock`. -/
def blockToApiObject (block : Option JsBlock) : BlockSummary :=
  match block with
  | none => { blockNumber := 0, timestamp := 0, memberCount := 0, totalEarnings := 0 }
  | some b =>
    match b.members with
    | none => { blockNumber := 0, timestamp := 0, memberCount := 0, totalEarnings := 0 }
    | some ms =>
      { blockNumber := b.blockNumber.getD 0
        timestamp := b.timestamp.getD 0
        memberCount := ms.length
        totalEarnings := b.totalEarnings.getD 0 }

/-- The two MonoplasmaState fields that the guard section of
`playbackUntilBlock` reads (`undefined` before the first playback is `none`). -/
structure PlasmaView where
  currentBlock : Option Int
  currentTimestamp : Option Int
deriving DecidableEq, Repr

/-- What `playbackUntilBlock` can raise before reaching the replay phase. -/
inductive PlaybackError
  /-- the `Cache has been pruned up to ...` error the source means to throw -/
  | cachePruned (upTo fromTs : Int)
  /-- a ReferenceError: a `const` binding read inside its temporal dead zone -/
  | referenceError (name : String)
deriving DecidableEq, Repr

/-- The guard section of `MonoplasmaWatcher.playbackUntilBlock`
(src/watcher.js lines 240-251).  `fromBlock = plasma.currentBlock + 1 || 0`
and `fromTimestamp = plasma.currentTimestamp || 0`; a target at or below
`fromBlock` is skipped (`ok none`, nothing applied).  When
`fromTimestamp < cachePrunedUpTo` the source throws — but the error message
interpolates `toTimestamp`, whose `const` declaration only comes after the
`if`, so evaluating the template literal raises a ReferenceError (temporal
dead zone), not the intended cache-pruned error.  The chain queries, message
slicing and `replayOn` that follow are abstracted as the continuation `rest`,
which receives `fromBlock` and `fromTimestamp`. -/
def playbackUntilBlock (cachePrunedUpTo : Int) (plasma : PlasmaView) (toBlock : Int)
    (rest : Int → Int → Except PlaybackError PlasmaView) :
    Except PlaybackError (Option PlasmaView) :=
  let fromBlock := match plasma.currentBlock with
    | some n => n + 1
    | none => 0
  let fromTimestamp := match plasma.currentTimestamp with
    | some t => t
    | none => 0
  if toBlock ≤ fromBlock then .ok none
  else if fromTimestamp < cachePrunedUpTo then
    .error (.referenceError "toTimestamp")
  else (rest fromBlock fromTimestamp).map some

/-! ## Definitions taken from the specification's wording (for comparison) -/

/-- Spec wording (claim C1): the UTF-8 bytes of a string.  All strings involved
are ASCII, where UTF-8 coincides with the code points. -/
def utf8Bytes (s : String) : List Nat := s.data.map Char.toNat

/-- Exactly `len` lowercase hex digits of `n`, zero-padded on the left
(most significant first); the spec's `hex64` is `fixedHex 64`. -/
def fixedHex : Nat → Nat → List Char
  | 0, _ => []
  | len + 1, n => fixedHex len (n / 16) ++ [hexDigitChar (n % 16)]

/-- Spec wording (claim C1): `hex64(E)`, E as exactly 64 lowercase hex digits. -/
def specHex64 (n : Nat) : String := ⟨fixedHex 64 n⟩

/-- Big-endian byte string of `n` in exactly `len` bytes. -/
def beBytes : Nat → Nat → List Nat
  | 0, _ => []
  | len + 1, n => (n / 256 ^ len) % 256 :: beBytes len n

/-- The hex-decoded bytes of a `0x...` address string (case-insensitive). -/
def addressBytes (s : String) : List Nat := decodePairs (s.data.drop 2)

/-- Spec wording (claim C2): the lexicographic minimum of two digests. -/
def specLexMin (l r : List Nat) : List Nat := if bufCompare l r = .gt then r else l

/-- Spec wording (claim C2): the lexicographic maximum of two digests. -/
def specLexMax (l r : List Nat) : List Nat := if bufCompare l r = .gt then l else r

/-- Filled-slot count of a tree level after `t` halving passes, starting from
`c` placed leaves: an odd level gets one zero sibling before being halved. -/
def cSeq (c : Nat) : Nat → Nat
  | 0 => c
  | t + 1 => (cSeq c t + cSeq c t % 2) / 2

/-! ## Concrete values used by counterexamples and witnesses -/

/-- A 40-character lowercase hex body. -/
def bodyLower : String := ⟨List.replicate 40 'a'⟩

/-- The same 20 bytes spelled in uppercase. -/
def bodyUpper : String := ⟨List.replicate 40 'A'⟩

/-- A valid all-lowercase address string. -/
def addrLower : String := "0x" ++ bodyLower

/-- The same address spelled in uppercase (also accepted by web3 `isAddress`). -/
def addrUpper : String := "0x" ++ bodyUpper

/-- A member with a lowercase address and earnings 5. -/
def memA : MonoplasmaMember := ⟨"", "0xaaaaaaaaaaaaaaaaaaaaaaaaaaaaaaaaaaaaaaaa", 5, true⟩

/-- A member with a lowercase address and earnings 7. -/
def memB : MonoplasmaMember := ⟨"", "0xbbbbbbbbbbbbbbbbbbbbbbbbbbbbbbbbbbbbbbbb", 7, true⟩

/-- A member with a lowercase address and earnings 9. -/
def memC : MonoplasmaMember := ⟨"", "0xcccccccccccccccccccccccccccccccccccccccc", 9, true⟩

/-- A member with zero earnings. -/
def memZero : MonoplasmaMember := ⟨"", "0xdddddddddddddddddddddddddddddddddddddddd", 0, true⟩

/-- An address present in no example tree. -/
def addrAbsent : String := "0xeeeeeeeeeeeeeeeeeeeeeeeeeeeeeeeeeeeeeeee"

/-- The member used by the claim C1 counterexample: lowercase address (so the
spec's `ascii(A)` is the address itself), zero earnings. -/
def memC1 : MonoplasmaMember := ⟨"", addrLower, 0, true⟩

/-- A two-member list whose tree builds successfully. -/
def msPair : List MonoplasmaMember := [memA, memB]

/-- A three-member list (odd count, exercising the zero sibling). -/
def msTriple : List MonoplasmaMember := [memA, memB, memC]

/-- The orbit of the `roundUpToPowerOfTwo` loop variable under JavaScript
32-bit shifting, for any bound `x > 2^30`: the powers of two up to `2^30`,
then the wrapped value `-2^31`, then the absorbing value `0`. -/
def rupOrbit : List Int := (List.range 31).map (fun j => (2 : Int) ^ j) ++ [-(2 ^ 31), 0]

/-- Specification of one `levelPass` run over a level starting at
`src = 2 * tgt` whose filled slots are `[src, src + m)` inside the level
bounds `[src, e)`: everything outside the written regions is untouched, the
level ends with `m + m % 2` buffer slots (a zero sibling fills the odd tail),
and the `(m + m % 2) / 2` freshly written parent slots are buffers. -/
structure LPout (hs r : List Slot) (tgt src e m : Nat) : Prop where
  len : r.length = hs.length
  below : ∀ j (d : Slot), j < tgt → r.getD j d = hs.getD j d
  mid : ∀ j (d : Slot), tgt + (m + m % 2) / 2 ≤ j → j < src → r.getD j d = hs.getD j d
  srcKeep : ∀ j (d : Slot), src ≤ j → j < src + m → r.getD j d = hs.getD j d
  undefKeep : ∀ j, src + m + m % 2 ≤ j → j < e → r.getD j .undef = .undef
  srcBuf : ∀ j, src ≤ j → j < src + m + m % 2 → ∃ b, r.getD j .undef = .buf b
  tgtBuf : ∀ j, tgt ≤ j → j < tgt + (m + m % 2) / 2 → ∃ b, r.getD j .undef = .buf b
  above : ∀ j (d : Slot), e ≤ j → r.getD j d = hs.getD j d

/-- Specification of a full `buildLevels` run over levels `K` down to `1`,
starting with `c` placed leaves at `[2^K, 2^K + c)` inside `[2^K, e)`: the
slots at or above `e` and slot 0 are untouched, level `K - t` ends with
`cSeq c t` buffers plus a possible zero sibling, and the root slot 1 holds a
buffer. -/
structure BLout (hs r : List Slot) (K e c : Nat) : Prop where
  len : r.length = hs.length
  above : ∀ j (d : Slot), e ≤ j → r.getD j d = hs.getD j d
  zeroKeep : ∀ d : Slot, r.getD 0 d = hs.getD 0 d
  levelBuf : ∀ t, t < K → ∀ j, 2 ^ (K - t) ≤ j →
    j < 2 ^ (K - t) + cSeq c t + cSeq c t % 2 → ∃ b, r.getD j .undef = .buf b
  rootBuf : ∃ b, r.getD 1 .undef = .buf b

/-- What a successful `buildMerkleTree` run guarantees: `branchCount = 2^K`
sits at slot 0, the index map sends exactly the members' addresses into the
leaf range, every sibling along the path from any leaf slot is a buffer, and
the root slot holds a buffer. -/
structure BuildOk (ms : List MonoplasmaMember) (t : MTree) (K : Nat) : Prop where
  Kpos : 1 ≤ K
  K30 : K ≤ 30
  zeroSlot : t.hashes.getD 0 .undef = .num (2 ^ K)
  lenle : ms.length ≤ 2 ^ K
  idxRange : ∀ a i, t.indexOf a = some i →
    2 ^ K ≤ i ∧ i < 2 ^ K + ms.length ∧ ∃ m ∈ ms, m.address = a
  idxNone : ∀ a, t.indexOf a = none ↔ ∀ m ∈ ms, m.address ≠ a
  sibBuf : ∀ i, 2 ^ K ≤ i → i < 2 ^ K + ms.length →
    ∀ tt, tt < K → ∃ b, t.hashes.getD ((i >>> tt) ^^^ 1) .undef = .buf b
  rootBuf : ∃ b, t.hashes.getD 1 .undef = .buf b

/-! ## General lemmas -/

theorem bufCompare_swap (a : List Nat) : ∀ b, bufCompare b a = (bufCompare a b).swap := by
  induction a with
  | nil => intro b; cases b <;> rfl
  | cons x as ih =>
    intro b
    cases b with
    | nil => rfl
    | cons y bs =>
      simp only [bufCompare]
      rcases lt_trichotomy x y with h | h | h
      · have h1 : ¬ y < x := by omega
        rw [if_neg h1, if_neg h1, if_pos h, if_pos h]
        rfl
      · subst h
        have h1 : ¬ x < x := by omega
        rw [if_neg h1, if_neg h1, if_neg h1, if_neg h1]
        exact ih bs
      · have h1 : ¬ x < y := by omega
        rw [if_pos h, if_neg h1, if_pos h]
        rfl

theorem bufCompare_eq (a : List Nat) : ∀ b, bufCompare a b = .eq → a = b := by
  induction a with
  | nil => intro b; cases b <;> simp [bufCompare]
  | cons x as ih =>
    intro b
    cases b with
    | nil => simp [bufCompare]
    | cons y bs =>
      simp only [bufCompare]
      rcases lt_trichotomy x y with h | h | h
      · rw [if_pos h]; intro hc; exact nomatch hc
      · subst h
        rw [if_neg (by omega), if_neg (by omega)]
        intro hc
        rw [ih bs hc]
      · rw [if_neg (by omega), if_pos h]; intro hc; exact nomatch hc

theorem xor_one_eq (n : Nat) : n ^^^ 1 = 2 * (n / 2) + (n + 1) % 2 := by
  have hm : (n ^^^ 1) % 2 = (n + 1) % 2 := Nat.xor_mod_two_eq
  have hd : (n ^^^ 1) / 2 = n / 2 := by
    rw [Nat.xor_div_two]
    norm_num
  omega

theorem pathLoop_succ (fuel i : Nat) (hs : List Slot) :
    pathLoop (fuel + 1) i hs =
      if 1 < i then hs.getD (i ^^^ 1) .undef :: pathLoop fuel (i >>> 1) hs else [] := rfl

theorem pathLoop_eq (hs : List Slot) :
    ∀ (k fuel i : Nat), k < fuel → 2 ^ k ≤ i → i < 2 ^ (k + 1) →
      pathLoop fuel i hs =
        (List.range k).map (fun j => hs.getD ((i >>> j) ^^^ 1) .undef) := by
  intro k
  induction k with
  | zero =>
    intro fuel i hfuel hlo hhi
    obtain ⟨f, rfl⟩ := Nat.exists_eq_add_of_lt hfuel
    simp only [pow_zero, pow_one] at hlo hhi
    interval_cases i
    rw [show 0 + f + 1 = f + 1 by omega, pathLoop_succ, if_neg (by omega)]
    rfl
  | succ k ih =>
    intro fuel i hfuel hlo hhi
    obtain ⟨f, rfl⟩ := Nat.exists_eq_add_of_lt hfuel
    have hpow : 1 < 2 ^ (k + 1) := Nat.one_lt_two_pow_iff.mpr (by omega)
    have h2 : 1 < i := by omega
    rw [show k + 1 + f + 1 = (k + f + 1) + 1 by omega, pathLoop_succ, if_pos h2]
    have hdiv : i >>> 1 = i / 2 := Nat.shiftRight_one i
    have hlo' : 2 ^ k ≤ i / 2 := by
      have hp : 2 ^ (k + 1) = 2 ^ k * 2 := by ring
      omega
    have hhi' : i / 2 < 2 ^ (k + 1) := by
      have hp : 2 ^ (k + 1 + 1) = 2 ^ (k + 1) * 2 := by ring
      omega
    rw [hdiv, ih (k + f + 1) (i / 2) (by omega) hlo' hhi']
    rw [List.range_succ_eq_map]
    simp only [List.map_cons, List.map_map]
    congr 1
    apply List.map_congr_left
    intro j _
    simp only [Function.comp_apply]
    have hsh : i >>> (j + 1) = (i / 2) >>> j := by
      rw [show j + 1 = 1 + j by omega, Nat.shiftRight_add, hdiv]
    rw [hsh]

theorem pathLoop_length (hs : List Slot) (k fuel i : Nat) (hfuel : k < fuel)
    (hlo : 2 ^ k ≤ i) (hhi : i < 2 ^ (k + 1)) : (pathLoop fuel i hs).length = k := by
  rw [pathLoop_eq hs k fuel i hfuel hlo hhi, List.length_map, List.length_range]

theorem getD_set_ne (l : List Slot) {i j : Nat} (v d : Slot) (h : i ≠ j) :
    (l.set i v).getD j d = l.getD j d := by
  rw [List.getD_eq_getElem?_getD, List.getD_eq_getElem?_getD, List.getElem?_set_ne h]

theorem getD_set_self (l : List Slot) {i : Nat} (v d : Slot) (h : i < l.length) :
    (l.set i v).getD i d = v := by
  rw [List.getD_eq_getElem?_getD, List.getElem?_set_self h]
  rfl

theorem levelPass_succ (fuel : Nat) (hs : List Slot) (sourceI targetI endI : Nat) :
    levelPass (fuel + 1) hs sourceI targetI endI =
      if sourceI < endI then
        match hs.getD sourceI .undef with
        | .undef => hs
        | .num _ => hs
        | .buf h1 =>
          match hs.getD (sourceI + 1) .undef with
          | .buf h2 => levelPass fuel (hs.set targetI (.buf (parentHash h1 h2)))
              (sourceI + 2) (targetI + 1) endI
          | _ => (hs.set (sourceI + 1) (.buf (List.replicate 32 0))).set targetI (.buf h1)
      else hs := rfl

theorem levelPass_spec :
    ∀ (fuel m tgt src : Nat) (hs : List Slot) (e : Nat),
      src = 2 * tgt →
      1 ≤ tgt →
      src + m ≤ e → e ≤ 2 * src → (e - src) % 2 = 0 →
      m / 2 + 1 ≤ fuel → e ≤ hs.length →
      (∀ j, src ≤ j → j < src + m → ∃ b, hs.getD j .undef = .buf b) →
      (∀ j, src + m ≤ j → j < e → hs.getD j .undef = .undef) →
      LPout hs (levelPass fuel hs src tgt e) tgt src e m := by
  intro fuel
  induction fuel with
  | zero => intro m tgt src hs e _ _ _ _ _ hfuel _ _ _; omega
  | succ fuel ih =>
    intro m tgt src hs e hsrc htgt hme he4 heven hfuel hlen hbuf hundef
    subst hsrc
    by_cases hm0 : m = 0
    · subst hm0
      have hr : levelPass (fuel + 1) hs (2 * tgt) tgt e = hs := by
        rw [levelPass_succ]
        by_cases h : 2 * tgt < e
        · rw [if_pos h, hundef (2 * tgt) (by omega) h]
        · rw [if_neg h]
      rw [hr]
      exact ⟨rfl, fun _ _ _ => rfl, fun _ _ _ _ => rfl, fun _ _ _ _ => rfl,
        fun j h1 h2 => hundef j (by omega) h2, fun j h1 h2 => by omega,
        fun j h1 h2 => by omega, fun _ _ _ => rfl⟩
    · have hsrc_lt : 2 * tgt < e := by omega
      obtain ⟨b1, hb1⟩ := hbuf (2 * tgt) (le_refl _) (by omega)
      by_cases hm1 : m = 1
      · subst hm1
        have hr : levelPass (fuel + 1) hs (2 * tgt) tgt e =
            (hs.set (2 * tgt + 1) (.buf (List.replicate 32 0))).set tgt (.buf b1) := by
          rw [levelPass_succ, if_pos hsrc_lt, hb1, hundef (2 * tgt + 1) (by omega) (by omega)]
        rw [hr]
        have hlt1 : 2 * tgt + 1 < hs.length := by omega
        have hlt2 : tgt < (hs.set (2 * tgt + 1) (.buf (List.replicate 32 0))).length := by
          rw [List.length_set]; omega
        refine ⟨?_, ?_, ?_, ?_, ?_, ?_, ?_, ?_⟩
        · rw [List.length_set, List.length_set]
        · intro j d hj
          rw [getD_set_ne _ _ _ (show tgt ≠ j by omega),
            getD_set_ne _ _ _ (show 2 * tgt + 1 ≠ j by omega)]
        · intro j d h1 h2
          rw [getD_set_ne _ _ _ (show tgt ≠ j by omega),
            getD_set_ne _ _ _ (show 2 * tgt + 1 ≠ j by omega)]
        · intro j d h1 h2
          rw [getD_set_ne _ _ _ (show tgt ≠ j by omega),
            getD_set_ne _ _ _ (show 2 * tgt + 1 ≠ j by omega)]
        · intro j h1 h2
          rw [getD_set_ne _ _ _ (show tgt ≠ j by omega),
            getD_set_ne _ _ _ (show 2 * tgt + 1 ≠ j by omega)]
          exact hundef j (by omega) h2
        · intro j h1 h2
          by_cases hj : j = 2 * tgt
          · subst hj
            rw [getD_set_ne _ _ _ (show tgt ≠ 2 * tgt by omega),
              getD_set_ne _ _ _ (show 2 * tgt + 1 ≠ 2 * tgt by omega)]
            exact ⟨b1, hb1⟩
          · have hj1 : j = 2 * tgt + 1 := by omega
            subst hj1
            rw [getD_set_ne _ _ _ (show tgt ≠ 2 * tgt + 1 by omega), getD_set_self _ _ _ hlt1]
            exact ⟨_, rfl⟩
        · intro j h1 h2
          have hj : j = tgt := by omega
          subst hj
          rw [getD_set_self _ _ _ hlt2]
          exact ⟨b1, rfl⟩
        · intro j d hj
          rw [getD_set_ne _ _ _ (show tgt ≠ j by omega),
            getD_set_ne _ _ _ (show 2 * tgt + 1 ≠ j by omega)]
      · obtain ⟨b2, hb2⟩ := hbuf (2 * tgt + 1) (by omega) (by omega)
        have hr : levelPass (fuel + 1) hs (2 * tgt) tgt e =
            levelPass fuel (hs.set tgt (.buf (parentHash b1 b2))) (2 * tgt + 2) (tgt + 1) e := by
          rw [levelPass_succ, if_pos hsrc_lt, hb1, hb2]
        rw [hr]
        have hq : m ≤ 2 * tgt := by omega
        have ihc := ih (m - 2) (tgt + 1) (2 * tgt + 2) (hs.set tgt (.buf (parentHash b1 b2))) e
          (by ring) (by omega) (by omega) (by omega) (by omega) (by omega)
          (by rw [List.length_set]; omega)
          (fun j h1 h2 => by
            rw [getD_set_ne _ _ _ (show tgt ≠ j by omega)]
            exact hbuf j (by omega) (by omega))
          (fun j h1 h2 => by
            rw [getD_set_ne _ _ _ (show tgt ≠ j by omega)]
            exact hundef j (by omega) h2)
        have hts : tgt < hs.length := by omega
        have hmq : (m - 2) + (m - 2) % 2 = m + m % 2 - 2 := by omega
        have hq1 : 1 ≤ (m + m % 2) / 2 := by omega
        have hqt : (m + m % 2) / 2 ≤ tgt := by omega
        have hq' : tgt + 1 + ((m - 2) + (m - 2) % 2) / 2 = tgt + (m + m % 2) / 2 := by omega
        refine ⟨?_, ?_, ?_, ?_, ?_, ?_, ?_, ?_⟩
        · rw [ihc.len, List.length_set]
        · intro j d hj
          rw [ihc.below j d (by omega), getD_set_ne _ _ _ (show tgt ≠ j by omega)]
        · intro j d h1 h2
          rw [ihc.mid j d (by omega) (by omega), getD_set_ne _ _ _ (show tgt ≠ j by omega)]
        · intro j d h1 h2
          by_cases hj2 : j < 2 * tgt + 2
          · rw [ihc.mid j d (by omega) (by omega), getD_set_ne _ _ _ (show tgt ≠ j by omega)]
          · rw [ihc.srcKeep j d (by omega) (by omega), getD_set_ne _ _ _ (show tgt ≠ j by omega)]
        · intro j h1 h2
          exact ihc.undefKeep j (by omega) h2
        · intro j h1 h2
          by_cases hj2 : j < 2 * tgt + 2
          · have hkeep : (levelPass fuel (hs.set tgt (.buf (parentHash b1 b2)))
                (2 * tgt + 2) (tgt + 1) e).getD j .undef = hs.getD j .undef := by
              rw [ihc.mid j .undef (by omega) (by omega),
                getD_set_ne _ _ _ (show tgt ≠ j by omega)]
            rw [hkeep]
            exact hbuf j h1 (by omega)
          · exact ihc.srcBuf j (by omega) (by omega)
        · intro j h1 h2
          by_cases hj : j = tgt
          · subst hj
            rw [ihc.below _ .undef (by omega), getD_set_self _ _ _ hts]
            exact ⟨_, rfl⟩
          · exact ihc.tgtBuf j (by omega) (by omega)
        · intro j d hj
          rw [ihc.above j d hj, getD_set_ne _ _ _ (show tgt ≠ j by omega)]

theorem buildLevels_succ (fuel : Nat) (hs : List Slot) (startI endI : Nat) :
    buildLevels (fuel + 1) hs startI endI =
      if 1 < startI then
        buildLevels fuel (levelPass (endI - startI + 1) hs startI (startI >>> 1) endI)
          (startI >>> 1) startI
      else hs := rfl

theorem cSeq_shift (c : Nat) : ∀ t, cSeq c (t + 1) = cSeq ((c + c % 2) / 2) t := by
  intro t
  induction t with
  | zero => rfl
  | succ t ih =>
    have h1 : cSeq c (t + 1 + 1) = (cSeq c (t + 1) + cSeq c (t + 1) % 2) / 2 := rfl
    rw [h1, ih]
    rfl

theorem cSeq_pos (c : Nat) (hc : 1 ≤ c) : ∀ t, 1 ≤ cSeq c t := by
  intro t
  induction t with
  | zero => exact hc
  | succ t ih => simp only [cSeq]; omega

theorem buildLevels_spec :
    ∀ (K : Nat) (fuel : Nat) (hs : List Slot) (c e : Nat),
      1 ≤ K → 1 ≤ c → 2 ^ K + c ≤ e → e ≤ 2 ^ (K + 1) → (e - 2 ^ K) % 2 = 0 →
      K + 1 ≤ fuel → e ≤ hs.length →
      (∀ j, 2 ^ K ≤ j → j < 2 ^ K + c → ∃ b, hs.getD j .undef = .buf b) →
      (∀ j, 2 ^ K + c ≤ j → j < e → hs.getD j .undef = .undef) →
      (∀ j, 1 ≤ j → j < 2 ^ K → hs.getD j .undef = .undef) →
      BLout hs (buildLevels fuel hs (2 ^ K) e) K e c := by
  intro K
  induction K with
  | zero => intro fuel hs c e hK _ _ _ _ _ _ _ _ _; omega
  | succ K ih =>
    intro fuel hs c e _ hc hce he heven hfuel hlen hbuf hundef hlow
    obtain ⟨f, rfl⟩ : ∃ f, fuel = f + 1 := ⟨fuel - 1, by omega⟩
    have hpow : (2 : Nat) ^ (K + 1) = 2 * 2 ^ K := by ring
    have hpowK : (1 : Nat) ≤ 2 ^ K := Nat.one_le_two_pow
    have h1lt : 1 < 2 ^ (K + 1) := by omega
    have hsrcK : (2 : Nat) ^ (K + 1) >>> 1 = 2 ^ K := by
      rw [Nat.shiftRight_one, hpow]
      omega
    rw [buildLevels_succ, if_pos h1lt, hsrcK]
    have hLP := levelPass_spec (e - 2 ^ (K + 1) + 1) c (2 ^ K) (2 ^ (K + 1)) hs e
      (by omega) (by omega) (by omega) (by omega) (by omega) (by omega) hlen hbuf hundef
    set hs2 := levelPass (e - 2 ^ (K + 1) + 1) hs (2 ^ (K + 1)) (2 ^ K) e with hhs2
    set c2 := (c + c % 2) / 2 with hc2
    have hcc : c ≤ 2 ^ (K + 1) := by omega
    have hc2le : 2 ^ K + c2 ≤ 2 ^ (K + 1) := by omega
    have hc2pos : 1 ≤ c2 := by omega
    by_cases hK0 : K = 0
    · -- bottom level: the recursive call starts at 1 and immediately returns hs2
      subst hK0
      have hp0 : (2 : Nat) ^ 0 = 1 := by norm_num
      have hdone : buildLevels f hs2 (2 ^ 0) (2 ^ (0 + 1)) = hs2 := by
        cases f with
        | zero => rfl
        | succ f => rw [buildLevels_succ, if_neg (by norm_num)]
      rw [hdone]
      refine ⟨hLP.len, ?_, ?_, ?_, ?_⟩
      · intro j d hj
        exact hLP.above j d hj
      · intro d
        exact hLP.below 0 d (by omega)
      · intro t ht j h1 h2
        have ht0 : t = 0 := by omega
        subst ht0
        simp only [Nat.sub_zero, cSeq] at h1 h2
        exact hLP.srcBuf j (by omega) (by omega)
      · exact hLP.tgtBuf 1 (by omega) (by
          have := cSeq_pos c hc 0
          simp only [cSeq] at this
          omega)
    · -- recursive case: apply the induction hypothesis one level down
      have hKpos : 1 ≤ K := by omega
      have hpow2 : (2 : Nat) ^ (K + 1) = 2 * 2 ^ K := hpow
      have hIH := ih f hs2 c2 (2 ^ (K + 1)) hKpos hc2pos (by omega) (le_of_eq rfl)
        (by
          have h2K : (2 : Nat) ^ K = 2 * 2 ^ (K - 1) := by
            conv_lhs => rw [show K = (K - 1) + 1 by omega]
            rw [pow_succ]
            ring
          omega)
        (by omega)
        (by rw [hLP.len]; omega)
        (fun j h1 h2 => hLP.tgtBuf j h1 (by omega))
        (fun j h1 h2 => by
          rw [hLP.mid j .undef (by omega) (by omega)]
          exact hlow j (by omega) (by omega))
        (fun j h1 h2 => by
          rw [hLP.below j .undef h2]
          exact hlow j h1 (by omega))
      refine ⟨?_, ?_, ?_, ?_, hIH.rootBuf⟩
      · rw [hIH.len, hLP.len]
      · intro j d hj
        rw [hIH.above j d (by omega), hLP.above j d (by omega)]
      · intro d
        rw [hIH.zeroKeep d, hLP.below 0 d (by omega)]
      · intro t ht j h1 h2
        cases t with
        | zero =>
          simp only [Nat.sub_zero, cSeq] at h1 h2
          have hkeep : (buildLevels f hs2 (2 ^ K) (2 ^ (K + 1))).getD j .undef =
              hs2.getD j .undef := hIH.above j .undef (by omega)
          rw [hkeep]
          exact hLP.srcBuf j (by omega) (by omega)
        | succ t =>
          have hseq : cSeq c (t + 1) = cSeq c2 t := cSeq_shift c t
          have hsub : K + 1 - (t + 1) = K - t := by omega
          rw [hsub] at h1 h2
          rw [hseq] at h2
          exact hIH.levelBuf t (by omega) j h1 h2

theorem placeLeaves_spec :
    ∀ (ms : List MonoplasmaMember) (i : Nat) (hs : List Slot) (idx : ObjMap)
      (hs' : List Slot) (idx' : ObjMap),
      placeLeaves ms i hs idx = some (hs', idx') →
      hs'.length = hs.length ∧
      (∀ j (d : Slot), j < i ∨ i + ms.length ≤ j → hs'.getD j d = hs.getD j d) ∧
      (∀ j, i ≤ j → j < i + ms.length → j < hs.length → ∃ b, hs'.getD j .undef = .buf b) := by
  intro ms
  induction ms with
  | nil =>
    intro i hs idx hs' idx' h
    have h' : some (hs, idx) = some (hs', idx') := h
    simp only [Option.some.injEq, Prod.mk.injEq] at h'
    obtain ⟨rfl, -⟩ := h'
    exact ⟨rfl, fun _ _ _ => rfl, fun j h1 h2 _ => by simp at h2; omega⟩
  | cons m ms ih =>
    intro i hs idx hs' idx' h
    simp only [placeLeaves] at h
    cases hh : hashLeaf m "" with
    | none =>
      rw [hh] at h
      exact nomatch h
    | some b =>
      rw [hh] at h
      have h' : placeLeaves ms (i + 1) (hs.set i (.buf b)) (objSet idx m.address i) =
          some (hs', idx') := h
      obtain ⟨L1, L2, L3⟩ := ih (i + 1) (hs.set i (.buf b)) (objSet idx m.address i) hs' idx' h'
      refine ⟨?_, ?_, ?_⟩
      · rw [L1, List.length_set]
      · intro j d hj
        rw [L2 j d (by simp only [List.length_cons] at hj ⊢; omega),
          getD_set_ne _ _ _ (show i ≠ j by simp only [List.length_cons] at hj; omega)]
      · intro j hj1 hj2 hj3
        by_cases hji : j = i
        · subst hji
          rw [L2 j .undef (Or.inl (by omega)), getD_set_self _ _ _ hj3]
          exact ⟨b, rfl⟩
        · exact L3 j (by omega) (by simp only [List.length_cons] at hj2; omega)
            (by rw [List.length_set]; omega)

theorem placeLeaves_indexOf :
    ∀ (ms : List MonoplasmaMember) (i : Nat) (hs : List Slot) (idx : ObjMap)
      (hs' : List Slot) (idx' : ObjMap),
      placeLeaves ms i hs idx = some (hs', idx') →
      ∀ a, (idx' a = idx a ∧ ∀ m ∈ ms, m.address ≠ a) ∨
        (∃ v, idx' a = some v ∧ i ≤ v ∧ v < i + ms.length ∧ ∃ m ∈ ms, m.address = a) := by
  intro ms
  induction ms with
  | nil =>
    intro i hs idx hs' idx' h a
    have h' : some (hs, idx) = some (hs', idx') := h
    simp only [Option.some.injEq, Prod.mk.injEq] at h'
    obtain ⟨-, rfl⟩ := h'
    exact Or.inl ⟨rfl, by simp⟩
  | cons m ms ih =>
    intro i hs idx hs' idx' h a
    simp only [placeLeaves] at h
    cases hh : hashLeaf m "" with
    | none =>
      rw [hh] at h
      exact nomatch h
    | some b =>
      rw [hh] at h
      have h' : placeLeaves ms (i + 1) (hs.set i (.buf b)) (objSet idx m.address i) =
          some (hs', idx') := h
      rcases ih (i + 1) (hs.set i (.buf b)) (objSet idx m.address i) hs' idx' h' a with
        ⟨heq, hn⟩ | ⟨v, hv, h1, h2, mm, hmm, hma⟩
      · by_cases ha : a = m.address
        · refine Or.inr ⟨i, ?_, le_refl i, by simp, m, List.mem_cons_self m ms, ha.symm⟩
          rw [heq]
          simp [objSet, ha]
        · refine Or.inl ⟨?_, ?_⟩
          · rw [heq]
            simp [objSet, ha]
          · intro m' hm'
            rcases List.mem_cons.mp hm' with rfl | hm'
            · exact fun hc => ha hc.symm
            · exact hn m' hm'
      · exact Or.inr ⟨v, hv, by omega, by simp only [List.length_cons]; omega,
          mm, List.mem_cons_of_mem m hmm, hma⟩

theorem rupLoop_succ (fuel : Nat) (i x : Int) :
    rupLoop (fuel + 1) i x =
      if i < x then rupLoop fuel (toInt32 (i * 2)) x else some i := rfl

theorem rupLoop_zero_absorb : ∀ (fuel : Nat) (x : Int), 0 < x → rupLoop fuel 0 x = none := by
  intro fuel
  induction fuel with
  | zero => intro x _; rfl
  | succ f ih =>
    intro x hx
    rw [rupLoop_succ, if_pos hx, show toInt32 (0 * 2) = 0 by decide]
    exact ih x hx

theorem rupLoop_neg_absorb (fuel : Nat) (x : Int) (hx : 0 < x) :
    rupLoop fuel (-(2 ^ 31)) x = none := by
  cases fuel with
  | zero => rfl
  | succ f =>
    have hlt : -((2 : Int) ^ 31) < x := by
      have h : (0 : Int) < 2 ^ 31 := by positivity
      omega
    rw [rupLoop_succ, if_pos hlt, show toInt32 (-(2 ^ 31 : Int) * 2) = 0 by decide]
    exact rupLoop_zero_absorb f x hx

theorem toInt32_small (n : Int) (h0 : 0 ≤ n) (h1 : n < 2 ^ 31) : toInt32 n = n := by
  have e1 : (2 : Int) ^ 31 = 2147483648 := by norm_num
  have e2 : (2 : Int) ^ 32 = 4294967296 := by norm_num
  unfold toInt32
  omega

theorem rupLoop_ok : ∀ (fuel j : Nat) (x b : Int), 0 < x → j ≤ 30 →
    rupLoop fuel ((2 : Int) ^ j) x = some b →
    ∃ k : Nat, k ≤ 30 ∧ b = 2 ^ k ∧ x ≤ 2 ^ k ∧ j ≤ k := by
  intro fuel
  induction fuel with
  | zero =>
    intro j x b _ _ h
    exact nomatch h
  | succ f ih =>
    intro j x b hx hj h
    rw [rupLoop_succ] at h
    by_cases hc : (2 : Int) ^ j < x
    · rw [if_pos hc] at h
      by_cases hj30 : j = 30
      · subst hj30
        rw [show toInt32 ((2 : Int) ^ 30 * 2) = -(2 ^ 31) by decide] at h
        rw [rupLoop_neg_absorb f x hx] at h
        exact nomatch h
      · have hstep : toInt32 ((2 : Int) ^ j * 2) = 2 ^ (j + 1) := by
          rw [show ((2 : Int) ^ j * 2) = 2 ^ (j + 1) by rw [pow_succ]]
          apply toInt32_small
          · positivity
          · have hle : (2 : Int) ^ (j + 1) ≤ 2 ^ 30 :=
              pow_le_pow_right₀ (by norm_num) (by omega)
            have h31 : (2 : Int) ^ 30 < 2 ^ 31 := by norm_num
            omega
        rw [hstep] at h
        obtain ⟨k, hk30, hb, hxk, hjk⟩ := ih (j + 1) x b hx (by omega) h
        exact ⟨k, hk30, hb, hxk, by omega⟩
    · rw [if_neg hc] at h
      obtain rfl : (2 : Int) ^ j = b := Option.some.inj h
      exact ⟨j, hj, rfl, by omega, le_refl j⟩

theorem roundUp_ok (x b : Int) (hx : 0 < x) (h : roundUpToPowerOfTwo x = .ok b) :
    ∃ k : Nat, k ≤ 30 ∧ b = 2 ^ k ∧ x ≤ 2 ^ k := by
  unfold roundUpToPowerOfTwo at h
  by_cases hg : x > 2 ^ 32
  · rw [if_pos hg] at h
    exact nomatch h
  · rw [if_neg hg] at h
    cases hr : rupLoop 64 1 x with
    | none =>
      rw [hr] at h
      exact nomatch h
    | some i =>
      rw [hr] at h
      have h' : JsOutcome.ok (α := Int) i = .ok b := h
      obtain rfl : i = b := by
        cases h'
        rfl
      obtain ⟨k, h1, h2, h3, -⟩ := rupLoop_ok 64 0 x i hx (by omega)
        (by rw [show ((2 : Int) ^ 0) = 1 by norm_num]; exact hr)
      exact ⟨k, h1, h2, h3⟩

theorem buildMerkleTree_eq (l : List MonoplasmaMember) :
    buildMerkleTree l =
      match roundUpToPowerOfTwo ((l.length + l.length % 2 : Nat) : Int) with
      | .hangs => .hangs
      | .threw e => .threw e
      | .ok bc =>
        match placeLeaves l bc.toNat
            ((List.replicate (bc.toNat + (l.length + l.length % 2)) Slot.undef).set 0
              (.num bc.toNat)) objEmpty with
        | none => .threw .invalidArrayish
        | some (hashes, indexOf) =>
          .ok ⟨buildLevels 64 hashes bc.toNat (bc.toNat + (l.length + l.length % 2)), indexOf⟩ :=
  rfl

theorem orbit_bounds (K c i : Nat) (hc : 1 ≤ c) (h1 : 2 ^ K ≤ i) (h2 : i < 2 ^ K + c) :
    ∀ t, t ≤ K → 2 ^ (K - t) ≤ i >>> t ∧ i >>> t < 2 ^ (K - t) + cSeq c t := by
  intro t
  induction t with
  | zero =>
    intro _
    rw [Nat.shiftRight_zero, Nat.sub_zero]
    exact ⟨h1, h2⟩
  | succ t ih =>
    intro ht
    obtain ⟨ha, hb⟩ := ih (by omega)
    rw [Nat.shiftRight_succ]
    have hs' : cSeq c (t + 1) = (cSeq c t + cSeq c t % 2) / 2 := rfl
    have hsp : 1 ≤ cSeq c t := cSeq_pos c hc t
    have hpe : 2 ^ (K - t) = 2 * 2 ^ (K - (t + 1)) := by
      rw [← pow_succ']
      congr 1
      omega
    omega

theorem sibling_in_level (K c i : Nat) (hc : 1 ≤ c) (h1 : 2 ^ K ≤ i) (h2 : i < 2 ^ K + c)
    (t : Nat) (ht : t < K) :
    2 ^ (K - t) ≤ (i >>> t) ^^^ 1 ∧
    (i >>> t) ^^^ 1 < 2 ^ (K - t) + cSeq c t + cSeq c t % 2 := by
  obtain ⟨ha, hb⟩ := orbit_bounds K c i hc h1 h2 t (by omega)
  have hx := xor_one_eq (i >>> t)
  have hpe : 2 ^ (K - t) = 2 * 2 ^ (K - t - 1) := by
    rw [← pow_succ']
    congr 1
    omega
  have hsp : 1 ≤ cSeq c t := cSeq_pos c hc t
  omega

theorem build_ok_spec (ms : List MonoplasmaMember) (t : MTree) (hne : ms ≠ [])
    (h : buildMerkleTree ms = .ok t) : ∃ K, BuildOk ms t K := by
  have hlen : 0 < ms.length := List.length_pos.mpr hne
  rw [buildMerkleTree_eq] at h
  cases hru : roundUpToPowerOfTwo ((ms.length + ms.length % 2 : Nat) : Int) with
  | hangs =>
    rw [hru] at h
    have h2 : JsOutcome.hangs (α := MTree) = .ok t := h
    exact nomatch h2
  | threw e =>
    rw [hru] at h
    have h2 : JsOutcome.threw (α := MTree) e = .ok t := h
    exact nomatch h2
  | ok bc =>
    rw [hru] at h
    obtain ⟨K, hK30, hbc, hxk⟩ := roundUp_ok _ bc
      (by exact_mod_cast (by omega : 0 < ms.length + ms.length % 2)) hru
    have hcast : ((2 ^ K : Nat) : Int) = (2 : Int) ^ K := by push_cast; ring
    have hbcn : bc.toNat = 2 ^ K := by omega
    have hlc2 : ms.length + ms.length % 2 ≤ 2 ^ K := by omega
    have hK1 : 1 ≤ K := by
      by_contra hK0
      have hK0' : K = 0 := by omega
      subst hK0'
      simp at hlc2
      omega
    have hmid :
        (match placeLeaves ms bc.toNat
            ((List.replicate (bc.toNat + (ms.length + ms.length % 2)) Slot.undef).set 0
              (Slot.num bc.toNat)) objEmpty with
          | none => JsOutcome.threw JsErr.invalidArrayish
          | some (hashes, indexOf) =>
            JsOutcome.ok
              (⟨buildLevels 64 hashes bc.toNat (bc.toNat + (ms.length + ms.length % 2)),
                indexOf⟩ : MTree)) = JsOutcome.ok t := h
    rw [hbcn] at hmid
    set treeSize := 2 ^ K + (ms.length + ms.length % 2) with hts
    set hashes0 := (List.replicate treeSize Slot.undef).set 0 (Slot.num (2 ^ K)) with hh0
    cases hpl : placeLeaves ms (2 ^ K) hashes0 objEmpty with
    | none =>
      rw [hpl] at hmid
      have h2 : JsOutcome.threw (α := MTree) .invalidArrayish = .ok t := hmid
      exact nomatch h2
    | some pr =>
      obtain ⟨hs1, idx⟩ := pr
      rw [hpl] at hmid
      have h' : JsOutcome.ok (⟨buildLevels 64 hs1 (2 ^ K) treeSize, idx⟩ : MTree) = .ok t := hmid
      obtain rfl : (⟨buildLevels 64 hs1 (2 ^ K) treeSize, idx⟩ : MTree) = t := by
        cases h'
        rfl
      have h2K : 1 < 2 ^ K := Nat.one_lt_two_pow_iff.mpr (by omega)
      have hp2 : (2 : Nat) ^ (K + 1) = 2 * 2 ^ K := by ring
      have hlen0 : hashes0.length = treeSize := by
        rw [hh0, List.length_set, List.length_replicate]
      have h0get : hashes0.getD 0 .undef = .num (2 ^ K) := by
        rw [hh0]
        exact getD_set_self _ _ _ (by rw [List.length_replicate]; omega)
      have hjget : ∀ j, 1 ≤ j → hashes0.getD j .undef = .undef := by
        intro j hj
        rw [hh0, getD_set_ne _ _ _ (by omega),
          List.getD_eq_getElem?_getD, List.getElem?_replicate]
        by_cases hjt : j < treeSize
        · rw [if_pos hjt]
          rfl
        · rw [if_neg hjt]
          rfl
      obtain ⟨hPL1, hPL2, hPL3⟩ := placeLeaves_spec ms (2 ^ K) hashes0 objEmpty hs1 idx hpl
      have hIdx := placeLeaves_indexOf ms (2 ^ K) hashes0 objEmpty hs1 idx hpl
      have hhs1len : hs1.length = treeSize := by rw [hPL1, hlen0]
      have hBL := buildLevels_spec K 64 hs1 ms.length treeSize hK1 (by omega) (by omega)
        (by omega) (by omega) (by omega) (by omega)
        (fun j h1 h2 => hPL3 j h1 (by omega) (by omega))
        (fun j h1 h2 => by
          rw [hPL2 j .undef (Or.inr (by omega))]
          exact hjget j (by omega))
        (fun j h1 h2 => by
          rw [hPL2 j .undef (Or.inl (by omega))]
          exact hjget j h1)
      refine ⟨K, ⟨hK1, hK30, ?_, by omega, ?_, ?_, ?_, hBL.rootBuf⟩⟩
      · show (buildLevels 64 hs1 (2 ^ K) treeSize).getD 0 .undef = .num (2 ^ K)
        rw [hBL.zeroKeep, hPL2 0 .undef (Or.inl (by omega)), h0get]
      · intro a i hio
        have hio' : idx a = some i := hio
        rcases hIdx a with ⟨heq, -⟩ | ⟨v, hv, hv1, hv2, mm, hmm, hma⟩
        · have hnone : (none : Option Nat) = some i := heq.symm.trans hio'
          exact nomatch hnone
        · obtain rfl : v = i := Option.some.inj (hv.symm.trans hio')
          exact ⟨by omega, by omega, mm, hmm, hma⟩
      · intro a
        show idx a = none ↔ _
        constructor
        · intro hn m hm hma
          rcases hIdx a with ⟨-, hno⟩ | ⟨v, hv, -, -, -, -, -⟩
          · exact hno m hm hma
          · rw [hv] at hn
            exact nomatch hn
        · intro hno
          rcases hIdx a with ⟨heq, -⟩ | ⟨v, hv, -, -, mm, hmm, hma⟩
          · rw [heq]
            rfl
          · exact absurd hma (hno mm hmm)
      · intro i hi1 hi2 tt htt
        obtain ⟨hsb1, hsb2⟩ := sibling_in_level K ms.length i (by omega) hi1 hi2 tt htt
        have hsub : K - tt = K - tt := rfl
        exact hBL.levelBuf tt htt ((i >>> tt) ^^^ 1) hsb1 hsb2

theorem getContents_ok (ms : List MonoplasmaMember) (hne : ms ≠ []) :
    getContents ms = buildMerkleTree ms := by
  unfold getContents
  rw [if_neg (fun h0 => hne (List.length_eq_zero.mp h0))]

theorem getPath_unfold (ms : List MonoplasmaMember) (addr : String) (t : MTree)
    (hne : ms ≠ []) (hb : buildMerkleTree ms = .ok t) :
    getPath ms addr =
      (match objGet t.indexOf addr with
        | none => JsOutcome.threw (.notFound addr)
        | some index =>
          if index = 0 then JsOutcome.threw (.notFound addr)
          else
            match (pathLoop 64 index t.hashes).mapM slotToHex with
            | none => JsOutcome.threw .typeError
            | some path => JsOutcome.ok path) := by
  simp only [getPath]
  rw [getContents_ok ms hne, hb]

theorem mapM_slotToHex (l : List Slot) (h : ∀ x ∈ l, ∃ b, x = Slot.buf b) :
    l.mapM slotToHex = some (l.map slotHexStr) := by
  induction l with
  | nil => rfl
  | cons x xs ih =>
    obtain ⟨b, rfl⟩ := h x (List.mem_cons_self x xs)
    have hxs := ih (fun y hy => h y (List.mem_cons_of_mem _ hy))
    rw [List.mapM_cons, hxs]
    rfl

theorem getPath_ok_of_present (ms : List MonoplasmaMember) (addr : String) (t : MTree)
    (K i : Nat) (hne : ms ≠ []) (hb : buildMerkleTree ms = .ok t) (hBO : BuildOk ms t K)
    (hidx : t.indexOf addr = some i) :
    getPath ms addr =
      .ok ((List.range K).map (fun j => slotHexStr (t.hashes.getD ((i >>> j) ^^^ 1) .undef))) := by
  obtain ⟨hi1, hi2, -⟩ := hBO.idxRange addr i hidx
  have hK1 := hBO.Kpos
  have hK30 := hBO.K30
  have hlenle := hBO.lenle
  have h2K : 1 < 2 ^ K := Nat.one_lt_two_pow_iff.mpr (by omega)
  have hp2 : (2 : Nat) ^ (K + 1) = 2 * 2 ^ K := by ring
  have hidx' : objGet t.indexOf addr = some i := hidx
  have h2 : getPath ms addr =
      (if i = 0 then JsOutcome.threw (.notFound addr)
       else
         match (pathLoop 64 i t.hashes).mapM slotToHex with
         | none => JsOutcome.threw .typeError
         | some path => JsOutcome.ok path) := by
    rw [getPath_unfold ms addr t hne hb, hidx']
  rw [h2, if_neg (show ¬ i = 0 by omega)]
  have hpl : pathLoop 64 i t.hashes =
      (List.range K).map (fun j => t.hashes.getD ((i >>> j) ^^^ 1) .undef) :=
    pathLoop_eq t.hashes K 64 i (by omega) hi1 (by omega)
  rw [hpl]
  have hbufs : ∀ x ∈ (List.range K).map (fun j => t.hashes.getD ((i >>> j) ^^^ 1) .undef),
      ∃ b, x = Slot.buf b := by
    intro x hx
    rw [List.mem_map] at hx
    obtain ⟨j, hj, rfl⟩ := hx
    rw [List.mem_range] at hj
    exact hBO.sibBuf i hi1 hi2 j hj
  rw [mapM_slotToHex _ hbufs, List.map_map]
  rfl

theorem getPath_notFound_of_absent (ms : List MonoplasmaMember) (addr : String) (t : MTree)
    (hne : ms ≠ []) (hb : buildMerkleTree ms = .ok t) (hidx : t.indexOf addr = none) :
    getPath ms addr = .threw (.notFound addr) := by
  have hidx' : objGet t.indexOf addr = none := hidx
  rw [getPath_unfold ms addr t hne hb, hidx']

/-! ## Claim C1 : the leaf hash -/

theorem hexVal_hexDigitChar : ∀ d, d < 16 →
    hexVal (hexDigitChar d) = d ∧ isHexDigitCI (hexDigitChar d) = true := by
  decide

theorem fixedHex_succ (L n : Nat) :
    fixedHex (L + 1) n = fixedHex L (n / 16) ++ [hexDigitChar (n % 16)] := rfl

theorem fixedHex_length : ∀ L n, (fixedHex L n).length = L := by
  intro L
  induction L with
  | zero => intro n; rfl
  | succ L ih =>
    intro n
    rw [fixedHex_succ, List.length_append, ih]
    rfl

theorem fixedHex_all_hex : ∀ L n, (fixedHex L n).all isHexDigitCI = true := by
  intro L
  induction L with
  | zero => intro n; rfl
  | succ L ih =>
    intro n
    rw [fixedHex_succ, List.all_append, ih]
    have hd := (hexVal_hexDigitChar (n % 16) (Nat.mod_lt _ (by omega))).2
    simp [hd]

theorem fixedHex_zero : ∀ L, fixedHex L 0 = List.replicate L '0' := by
  intro L
  induction L with
  | zero => rfl
  | succ L ih =>
    rw [fixedHex_succ, Nat.zero_div, ih, show hexDigitChar (0 % 16) = '0' from by decide,
      ← List.replicate_succ']

theorem hexRepGo_zero : ∀ fuel, hexRepGo fuel 0 = [] := by
  intro fuel
  cases fuel <;> simp [hexRepGo]

theorem leftPad_hexRepGo : ∀ L n fuel, L ≤ fuel → n < 16 ^ L →
    List.replicate (L - (hexRepGo fuel n).length) '0' ++ hexRepGo fuel n = fixedHex L n := by
  intro L
  induction L with
  | zero =>
    intro n fuel _ hn
    interval_cases n
    rw [hexRepGo_zero]
    rfl
  | succ L ih =>
    intro n fuel hfuel hn
    obtain ⟨f, rfl⟩ : ∃ f, fuel = f + 1 := ⟨fuel - 1, by omega⟩
    by_cases hz : n = 0
    · subst hz
      rw [hexRepGo_zero, fixedHex_zero]
      simp
    · have hstep : hexRepGo (f + 1) n = hexRepGo f (n / 16) ++ [hexDigitChar (n % 16)] := by
        simp [hexRepGo, hz]
      have hdiv : n / 16 < 16 ^ L := by
        rw [pow_succ] at hn
        omega
      have hIH := ih (n / 16) f (by omega) hdiv
      have hlenIH := congrArg List.length hIH
      rw [List.length_append, List.length_replicate, fixedHex_length] at hlenIH
      rw [hstep, fixedHex_succ, ← hIH]
      rw [List.length_append, List.length_cons, List.length_nil]
      rw [show L + 1 - ((hexRepGo f (n / 16)).length + (0 + 1)) =
        L - (hexRepGo f (n / 16)).length by omega]
      rw [List.append_assoc]

theorem padMult64_eq_fixedHex (n : Nat) (hn : n < 16 ^ 64) :
    (if (hexRep n).length % 64 = 0 then hexRep n
     else List.replicate (64 - (hexRep n).length % 64) '0' ++ hexRep n) = fixedHex 64 n := by
  by_cases hz : n = 0
  · subst hz
    rw [show hexRep 0 = ['0'] from rfl, fixedHex_zero]
    rw [if_neg (by norm_num)]
    norm_num [← List.replicate_succ']
  · have hrep : hexRep n = hexRepGo 512 n := by simp [hexRep, hz]
    have hpad := leftPad_hexRepGo 64 n 512 (by omega) hn
    have hlen : (hexRepGo 512 n).length ≤ 64 := by
      have hl := congrArg List.length hpad
      rw [List.length_append, List.length_replicate, fixedHex_length] at hl
      omega
    have hpos : 0 < (hexRepGo 512 n).length := by
      have hstep : hexRepGo 512 n = hexRepGo 511 (n / 16) ++ [hexDigitChar (n % 16)] := by
        simp [show (512 : Nat) = 511 + 1 from rfl, hexRepGo, hz]
      rw [hstep, List.length_append]
      simp
    rw [hrep]
    by_cases h64 : (hexRepGo 512 n).length = 64
    · rw [if_pos (by rw [h64])]
      rw [← hpad, h64]
      simp
    · have hmod : (hexRepGo 512 n).length % 64 = (hexRepGo 512 n).length :=
        Nat.mod_eq_of_lt (by omega)
      rw [if_neg (by omega), hmod, hpad]

theorem bn_hex_eq_fixedHex (e : Int) (h0 : 0 ≤ e) (hlt : e < 2 ^ 256) :
    bnToHexPadded e 64 = ⟨fixedHex 64 e.toNat⟩ := by
  have habs : e.natAbs = e.toNat := by omega
  have hneg : ¬ e < 0 := by omega
  have hn : e.toNat < 16 ^ 64 := by
    have h1616 : (16 : Nat) ^ 64 = 2 ^ 256 := by norm_num
    omega
  simp only [bnToHexPadded]
  rw [habs, if_neg hneg]
  exact congrArg String.mk (padMult64_eq_fixedHex e.toNat hn)

theorem decodePairs_append : ∀ (a b : List Char), a.length % 2 = 0 →
    decodePairs (a ++ b) = decodePairs a ++ decodePairs b := by
  have H : ∀ (k : Nat) (a : List Char), a.length ≤ k → a.length % 2 = 0 → ∀ b,
      decodePairs (a ++ b) = decodePairs a ++ decodePairs b := by
    intro k
    induction k with
    | zero =>
      intro a hlen _ b
      have ha : a = [] := List.eq_nil_of_length_eq_zero (by omega)
      subst ha
      rfl
    | succ k ih =>
      intro a hlen hpar b
      match a with
      | [] => rfl
      | [x] => simp at hpar
      | x :: y :: rest =>
        simp only [List.length_cons] at hlen hpar
        simp only [List.cons_append, decodePairs, List.append_eq]
        rw [ih rest (by omega) (by omega) b]
  intro a b hpar
  exact H a.length a (le_refl _) hpar b

theorem beBytes_snoc : ∀ (k n : Nat), beBytes (k + 1) n = beBytes k (n / 256) ++ [n % 256] := by
  intro k
  induction k with
  | zero =>
    intro n
    simp [beBytes]
  | succ k ih =>
    intro n
    have hhead : n / 256 ^ (k + 1) = (n / 256) / 256 ^ k := by
      rw [Nat.div_div_eq_div_mul, pow_succ, mul_comm (256 ^ k) 256]
    calc beBytes (k + 1 + 1) n = (n / 256 ^ (k + 1)) % 256 :: beBytes (k + 1) n := rfl
      _ = (n / 256 ^ (k + 1)) % 256 :: (beBytes k (n / 256) ++ [n % 256]) := by rw [ih]
      _ = ((n / 256 / 256 ^ k) % 256 :: beBytes k (n / 256)) ++ [n % 256] := by
          rw [hhead]; rfl
      _ = beBytes (k + 1) (n / 256) ++ [n % 256] := rfl

theorem decodePairs_fixedHex : ∀ (k n : Nat), decodePairs (fixedHex (2 * k) n) = beBytes k n := by
  intro k
  induction k with
  | zero => intro n; rfl
  | succ k ih =>
    intro n
    rw [show 2 * (k + 1) = (2 * k + 1) + 1 by omega, fixedHex_succ, fixedHex_succ,
      List.append_assoc]
    rw [decodePairs_append _ _ (by rw [fixedHex_length]; omega)]
    rw [ih]
    have hv1 := (hexVal_hexDigitChar (n / 16 % 16) (Nat.mod_lt _ (by omega))).1
    have hv2 := (hexVal_hexDigitChar (n % 16) (Nat.mod_lt _ (by omega))).1
    have hpair : decodePairs ([hexDigitChar (n / 16 % 16)] ++ [hexDigitChar (n % 16)]) =
        [hexVal (hexDigitChar (n / 16 % 16)) * 16 + hexVal (hexDigitChar (n % 16))] := rfl
    rw [hpair, hv1, hv2]
    have hmod : n / 16 % 16 * 16 + n % 16 = n % 256 := by
      have := Nat.mod_mul (a := 16) (b := 16) (x := n)
      omega
    rw [hmod, Nat.div_div_eq_div_mul, beBytes_snoc]

/-- Claim C1 counterexample: even for a member whose stored address is the
lowercase 42-character form, `hashLeaf` does not hash the UTF-8 bytes of
`ascii(B) ++ ascii(A) ++ hex64(E)` — ethers v4 `keccak256` arrayifies the
string, i.e. hex-decodes it, so the digest is over 52 raw bytes, not over the
106 ASCII characters. -/
theorem claim_C1_counterexample :
    hashLeaf memC1 "" ≠
      some (keccak256 (utf8Bytes ("" ++ memC1.address ++ specHex64 memC1.earnings.toNat))) := by
  decide

/-- Claim C1 as amended: for a member whose address is the `0x`-prefixed
42-character hex form (any letter case) and whose earnings fit in 256 bits,
`hashLeaf(member, "")` — as invoked by `buildMerkleTree` — is the keccak-256
digest of the 52 raw bytes obtained by hex-decoding the concatenation: the 20
address bytes followed by the earnings as 32 big-endian bytes.  The
concatenated string is consumed by ethers `keccak256` as a hex byte string,
never as UTF-8 text (so the address's letter case does not affect the digest,
and a nonempty decimal blockNumber salt would make the string non-hex and
throw). -/
theorem claim_C1_amended (m : MonoplasmaMember)
    (hpre : m.address.data.take 2 = ['0', 'x'])
    (hlen : m.address.length = 42)
    (hhex : (m.address.data.drop 2).all isHexDigitCI = true)
    (h0 : 0 ≤ m.earnings) (hlt : m.earnings < 2 ^ 256) :
    hashLeaf m "" = some (keccak256 (addressBytes m.address ++ beBytes 32 m.earnings.toNat)) := by
  obtain ⟨rest, hdd⟩ : ∃ rest, m.address.data = '0' :: 'x' :: rest := by
    cases hd : m.address.data with
    | nil => rw [hd] at hpre; simp at hpre
    | cons c1 tl =>
      cases tl with
      | nil => rw [hd] at hpre; simp at hpre
      | cons c2 rest =>
        rw [hd] at hpre
        simp only [List.take_succ_cons, List.take_zero, List.cons.injEq, and_true] at hpre
        exact ⟨rest, by rw [hpre.1, hpre.2]⟩
  have hdl : m.address.data.length = 42 := hlen
  rw [hdd] at hdl
  simp only [List.length_cons] at hdl
  have hrlen : rest.length = 40 := by omega
  have hrhex : rest.all isHexDigitCI = true := by
    rw [hdd] at hhex
    simpa using hhex
  rw [show hashLeaf m "" = hashString ("" ++ m.address ++ bnToHexPadded m.earnings 64) from rfl]
  rw [bn_hex_eq_fixedHex m.earnings h0 hlt]
  unfold hashString
  have hdata : ("" ++ m.address ++ (⟨fixedHex 64 m.earnings.toNat⟩ : String)).data =
      '0' :: 'x' :: (rest ++ fixedHex 64 m.earnings.toNat) := by
    rw [String.data_append, String.data_append, hdd]
    rfl
  simp only [arrayify]
  rw [hdata]
  rw [if_pos ?hcond]
  case hcond =>
    constructor
    · rfl
    · simp only [List.drop_succ_cons, List.drop_zero, List.all_append]
      rw [hrhex, fixedHex_all_hex]
      rfl
  simp only [List.drop_succ_cons, List.drop_zero]
  rw [if_neg ?hodd]
  case hodd =>
    rw [List.length_append, fixedHex_length, hrlen]
    omega
  rw [decodePairs_append _ _ (by rw [hrlen])]
  rw [show (64 : Nat) = 2 * 32 from rfl, decodePairs_fixedHex]
  have haddr : addressBytes m.address = decodePairs rest := by
    unfold addressBytes
    rw [hdd]
    rfl
  rw [haddr]
  rfl

/-- Witness for the amended claim C1 at a concrete member. -/
theorem claim_C1_amended_witness :
    memA.address.data.take 2 = ['0', 'x'] ∧ memA.address.length = 42 ∧
    (memA.address.data.drop 2).all isHexDigitCI = true ∧ 0 ≤ memA.earnings ∧
    memA.earnings < 2 ^ 256 ∧
    hashLeaf memA "" =
      some (keccak256 (addressBytes memA.address ++ beBytes 32 memA.earnings.toNat)) :=
  ⟨by decide, by decide, by decide, by decide, by norm_num [memA],
    claim_C1_amended memA (by decide) (by decide) (by decide) (by decide) (by norm_num [memA])⟩

/-! ## Claim C2 : sibling-sorted branch hashing -/

/-- Claim C2 (confirmed): the parent digest computed during `buildMerkleTree`
equals `keccak256(min(L,R) ++ max(L,R))` with lexicographic comparison on the
byte strings, and consequently it is invariant under swapping the children. -/
theorem claim_C2 (L R : List Nat) :
    parentHash L R = hashCombined (specLexMin L R) (specLexMax L R) ∧
    parentHash L R = parentHash R L := by
  unfold parentHash specLexMin specLexMax
  cases h : bufCompare L R with
  | lt =>
    have hswap : bufCompare R L = .gt := by rw [bufCompare_swap, h]; rfl
    rw [hswap]
    exact ⟨by simp, by simp⟩
  | eq =>
    have hLR := bufCompare_eq L R h
    subst hLR
    rw [h]
    exact ⟨by simp, by simp⟩
  | gt =>
    have hswap : bufCompare R L = .lt := by rw [bufCompare_swap, h]; rfl
    rw [hswap]
    exact ⟨by simp, by simp⟩

/-! ## Claim C3 : addRevenue and monotonicity of earnings -/

/-- Claim C3 counterexample: `addRevenue` performs no sign check — a negative
amount is added silently (no error is raised; the function has no throw path),
and the member's earnings strictly decrease. -/
theorem claim_C3_counterexample :
    (memA.addRevenue (-2)).earnings = 3 ∧ ¬ memA.earnings ≤ (memA.addRevenue (-2)).earnings := by
  decide

/-- Claim C3 as amended: `addRevenue(amount)` adds `amount` to the earnings
unconditionally and never raises; earnings are non-decreasing across any
sequence of calls whose amounts are all non-negative (the sign check claimed
by the specification does not exist in the code). -/
theorem claim_C3_amended :
    (∀ (m : MonoplasmaMember) (a : Int), (m.addRevenue a).earnings = m.earnings + a) ∧
    (∀ (m : MonoplasmaMember) (amounts : List Int), (∀ a ∈ amounts, 0 ≤ a) →
      m.earnings ≤ (amounts.foldl MonoplasmaMember.addRevenue m).earnings) := by
  constructor
  · intro m a; rfl
  · intro m amounts
    induction amounts generalizing m with
    | nil => intro _; exact le_refl _
    | cons a as ih =>
      intro h
      have h0 : 0 ≤ a := h a (List.mem_cons_self a as)
      have h1 := ih (m.addRevenue a) (fun x hx => h x (List.mem_cons_of_mem a hx))
      calc m.earnings ≤ (m.addRevenue a).earnings := by
            simp only [MonoplasmaMember.addRevenue]; omega
        _ ≤ _ := by simpa [List.foldl_cons] using h1

/-- Witness for the amended claim C3, at a concrete member and amounts. -/
theorem claim_C3_amended_witness :
    (∀ a ∈ [(3 : Int), 4], 0 ≤ a) ∧
    memA.earnings ≤ ([(3 : Int), 4].foldl MonoplasmaMember.addRevenue memA).earnings :=
  ⟨by decide, claim_C3_amended.2 memA [3, 4] (by decide)⟩

/-! ## Claim C4 : buildMerkleTree sizing, rejection and termination -/

theorem rupOrbit_closed : ∀ i ∈ rupOrbit, i ≤ 2 ^ 30 ∧ toInt32 (i * 2) ∈ rupOrbit := by
  decide

theorem rupLoop_none_of_orbit (x : Int) (hx : 2 ^ 30 < x) :
    ∀ fuel, ∀ i ∈ rupOrbit, rupLoop fuel i x = none := by
  intro fuel
  induction fuel with
  | zero => intro i _; rfl
  | succ f ih =>
    intro i hi
    have h := rupOrbit_closed i hi
    simp only [rupLoop]
    rw [if_pos (by omega)]
    exact ih _ h.2

theorem roundUp_hangs_of_mid (x : Int) (hlo : 2 ^ 30 < x) (hhi : x ≤ 2 ^ 32) :
    roundUpToPowerOfTwo x = .hangs := by
  unfold roundUpToPowerOfTwo
  rw [if_neg (by omega), rupLoop_none_of_orbit x hlo 64 1 (by decide)]

theorem buildMerkleTree_hangs_mid (l : List MonoplasmaMember)
    (hlo : 2 ^ 30 < l.length + l.length % 2)
    (hhi : l.length + l.length % 2 ≤ 2 ^ 32) :
    buildMerkleTree l = .hangs := by
  rw [buildMerkleTree_eq,
    roundUp_hangs_of_mid _ (by exact_mod_cast hlo) (by exact_mod_cast hhi)]

/-- Claim C4 (code bug): `leafCount` is indeed `len + len % 2`, but the code
does not reject leaf counts above `2^31` — its guard fires only above `2^32`
(`MAX_POW_2`), and because `i <<= 1` is a 32-bit signed shift the sizing loop
wraps `2^30` to `-2^31` and then to the absorbing value `0`, so
`buildMerkleTree` loops forever (under every fuel) on any list whose leaf
count lies in `(2^30, 2^32]` — including the claim's supposedly-accepted
`2^30 + 2` and the claim's supposedly-rejected `2^31 + 2`. -/
theorem claim_C4 :
    buildMerkleTree (List.replicate (2 ^ 30 + 1) memA) = .hangs ∧
    (∀ fuel, rupLoop fuel 1 ((2 : Int) ^ 30 + 2) = none) ∧
    ((2 : Int) ^ 30 + 2 ≤ 2 ^ 31) ∧
    roundUpToPowerOfTwo ((2 : Int) ^ 31 + 2) = .hangs := by
  refine ⟨?_, ?_, by norm_num, roundUp_hangs_of_mid _ (by norm_num) (by norm_num)⟩
  · exact buildMerkleTree_hangs_mid _
      (by rw [List.length_replicate]; norm_num)
      (by rw [List.length_replicate]; norm_num)
  · intro fuel
    exact rupLoop_none_of_orbit _ (by norm_num) fuel 1 (by decide)

/-! ## Claim C5 : address canonicalization at member construction -/

/-- Claim C5 counterexample: two syntactically valid spellings of the same
20-byte address (all-lowercase and all-uppercase) are both accepted by the
member constructor, and are stored verbatim — the resulting address fields
differ, so no canonicalization to a checksummed form happens. -/
theorem claim_C5_counterexample :
    validateAddress addrLower = some addrLower ∧
    validateAddress addrUpper = some addrUpper ∧
    addressBytes addrLower = addressBytes addrUpper ∧
    validateAddress addrLower ≠ validateAddress addrUpper := by
  decide

theorem isAddress_regexCI {s : String} (h : isAddress s = true) : regexAddrCI s = true := by
  unfold isAddress at h
  by_cases hr : regexAddrCI s = true
  · exact hr
  · rw [if_pos (by simp [hr])] at h
    exact absurd h (by simp)

theorem regexAddrCI_elim {s : String} (h : regexAddrCI s = true) :
    ((s.data.take 2 = ['0', 'x'] ∨ s.data.take 2 = ['0', 'X']) ∧ s.data.length = 42 ∧
      (s.data.drop 2).all isHexDigitCI = true) ∨
    (¬(s.data.take 2 = ['0', 'x'] ∨ s.data.take 2 = ['0', 'X']) ∧ s.data.length = 40 ∧
      s.data.all isHexDigitCI = true) := by
  simp only [regexAddrCI, strip0xCI] at h
  by_cases hp : s.data.take 2 = ['0', 'x'] ∨ s.data.take 2 = ['0', 'X']
  · rw [if_pos hp] at h
    simp only [Bool.and_eq_true, beq_iff_eq] at h
    left
    refine ⟨hp, ?_, h.2⟩
    have h2 : 2 ≤ s.data.length := by
      rcases hp with hp | hp <;>
        · have hl := congrArg List.length hp
          simp only [List.length_take, List.length_cons, List.length_nil] at hl
          omega
    have hd := h.1
    simp only [List.length_drop] at hd
    omega
  · rw [if_neg hp] at h
    simp only [Bool.and_eq_true, beq_iff_eq] at h
    right
    exact ⟨hp, h.1, h.2⟩

/-- Claim C5 as amended: member construction validates but does not
canonicalize.  An accepted input is returned verbatim apart from the `0x`
prepended to 40-character inputs; every accepted address is a `0x`- or
`0X`-prefixed string of 40 hex digits satisfying web3 `isAddress`
(all-lowercase, all-uppercase, or checksummed mixed case), and every input
whose extension fails `isAddress` throws the bad-address error. -/
theorem claim_C5_amended :
    (∀ s t, validateAddress s = some t →
      t = extendAddress s ∧ t.length = 42 ∧
      (t.data.take 2 = ['0', 'x'] ∨ t.data.take 2 = ['0', 'X']) ∧
      (t.data.drop 2).all isHexDigitCI = true ∧ isAddress t = true) ∧
    (∀ s, isAddress (extendAddress s) = false → validateAddress s = none) := by
  constructor
  · intro s t hv
    unfold validateAddress at hv
    by_cases ha : isAddress (extendAddress s) = true
    · rw [if_pos ha] at hv
      obtain rfl : extendAddress s = t := Option.some.inj hv
      rcases regexAddrCI_elim (isAddress_regexCI ha) with ⟨hp, hlen, hhex⟩ | ⟨hp, hlen, _⟩
      · exact ⟨rfl, hlen, hp, hhex, ha⟩
      · exfalso
        unfold extendAddress at hp hlen
        by_cases h40 : s.length = 40
        · rw [if_pos h40] at hp
          refine hp (Or.inl ?_)
          rw [String.data_append]
          rfl
        · rw [if_neg h40] at hlen
          exact h40 hlen
    · rw [if_neg ha] at hv
      exact absurd hv (by simp)
  · intro s h
    unfold validateAddress
    rw [if_neg (by simp [h])]

/-- Witness for the amended claim C5 at a concrete accepted input:
a bare 40-character body gets `0x` prepended and is otherwise unchanged; a
`0X`-prefixed all-uppercase address (a vector web3's test suite accepts) is
taken by the uppercase fast path and stored verbatim. -/
theorem claim_C5_amended_witness :
    validateAddress bodyLower = some addrLower ∧
    (addrLower = extendAddress bodyLower ∧ addrLower.length = 42 ∧
      (addrLower.data.take 2 = ['0', 'x'] ∨ addrLower.data.take 2 = ['0', 'X']) ∧
      (addrLower.data.drop 2).all isHexDigitCI = true ∧ isAddress addrLower = true) ∧
    validateAddress "0XC6D9D2CD449A754C494264E1809C50E34D64562B" =
      some "0XC6D9D2CD449A754C494264E1809C50E34D64562B" :=
  ⟨by decide, claim_C5_amended.1 bodyLower addrLower (by decide), by decide⟩

/-! ## Claim C6 : playback refusal after cache pruning -/

/-- Claim C6 (code bug): a playback request that starts before the pruning
horizon and is not skipped does raise an error before any event or message is
applied (the result does not depend on the replay continuation `rest`) — but
the raised error is a ReferenceError from the temporal dead zone on
`toTimestamp` inside the error-message template literal, not the intended
`CachePruned` error. -/
theorem claim_C6 (cachePrunedUpTo : Int) (plasma : PlasmaView) (toBlock ts : Int)
    (hts : plasma.currentTimestamp = some ts)
    (hpruned : ts < cachePrunedUpTo)
    (hnotskip : (match plasma.currentBlock with | some n => n + 1 | none => 0) < toBlock) :
    ∀ rest, playbackUntilBlock cachePrunedUpTo plasma toBlock rest =
      .error (.referenceError "toTimestamp") := by
  intro rest
  unfold playbackUntilBlock
  rw [hts]
  rw [if_neg (by omega), if_pos hpruned]

/-- Witness for claim C6 at the failing input: horizon 5000, state timestamp
3000, current block 10, target block 100. -/
theorem claim_C6_witness :
    playbackUntilBlock 5000 ⟨some 10, some 3000⟩ 100 (fun _ _ => .ok ⟨none, none⟩) =
      .error (.referenceError "toTimestamp") :=
  claim_C6 5000 ⟨some 10, some 3000⟩ 100 3000 rfl (by decide) (by decide) _

/-! ## Claim C10 : totality of the block summaries -/

/-- Claim C10 (confirmed): `summarizeBlock` and `blockToApiObject` are total —
a missing block or one without a `members` field yields the all-zero summary;
otherwise each missing field falls back to 0 and `memberCount` is the length
of `members` — and the two functions agree on every input. -/
theorem claim_C10 :
    (∀ b : Option JsBlock, (b = none ∨ ∃ blk, b = some blk ∧ blk.members = none) →
      summarizeBlock b = ⟨0, 0, 0, 0⟩) ∧
    (∀ (blk : JsBlock) (ms : List MonoplasmaMember), blk.members = some ms →
      summarizeBlock (some blk) =
        ⟨blk.blockNumber.getD 0, blk.timestamp.getD 0, ms.length, blk.totalEarnings.getD 0⟩) ∧
    (∀ b : Option JsBlock, blockToApiObject b = summarizeBlock b) := by
  refine ⟨?_, ?_, ?_⟩
  · rintro b (rfl | ⟨blk, rfl, hm⟩)
    · rfl
    · simp [summarizeBlock, hm]
  · intro blk ms hm
    simp [summarizeBlock, hm]
  · intro b
    rcases b with _ | blk
    · rfl
    · rcases h : blk.members with _ | ms <;> simp [summarizeBlock, blockToApiObject, h]

/-- Witness for claim C10: a block with `members` but no `timestamp`, and a
block lacking `members` entirely. -/
theorem claim_C10_witness :
    summarizeBlock (some ⟨some 3, none, none, some 70⟩) = ⟨0, 0, 0, 0⟩ ∧
    summarizeBlock (some ⟨some 3, some 10, some [memA], some 70⟩) = ⟨3, 10, 1, 70⟩ :=
  ⟨claim_C10.1 _ (Or.inr ⟨_, rfl, rfl⟩),
   (claim_C10.2.1 ⟨some 3, some 10, some [memA], some 70⟩ [memA] rfl).trans rfl⟩

/-- Claim C7: for every successfully built tree and every address present in
its index with leaf slot `i`, `getPath` returns exactly the hex-encoded
sibling slots `hashes[(i >>> j) ^^^ 1]` for `j = 0 .. K - 1` (ascending,
stopping before the root at slot 1), where the stored branch count
`hashes[0]` is `2 ^ K` — so the path has `log2(branchCount)` entries; in
particular the single-member tree yields exactly one entry, the zero
digest. -/
theorem claim_C7 :
    (∀ (ms : List MonoplasmaMember) (addr : String) (t : MTree) (i : Nat),
      ms ≠ [] → buildMerkleTree ms = .ok t → t.indexOf addr = some i →
      ∃ K, 1 ≤ K ∧ t.hashes.getD 0 .undef = .num (2 ^ K) ∧
        getPath ms addr =
          .ok ((List.range K).map
            (fun j => slotHexStr (t.hashes.getD ((i >>> j) ^^^ 1) .undef)))) ∧
    getPath [memA] memA.address = .ok [String.mk ('0' :: 'x' :: List.replicate 64 '0')] := by
  constructor
  · intro ms addr t i hne hb hidx
    obtain ⟨K, hBO⟩ := build_ok_spec ms t hne hb
    exact ⟨K, hBO.Kpos, hBO.zeroSlot, getPath_ok_of_present ms addr t K i hne hb hBO hidx⟩
  · decide

/-- Witness for claim C7: the single-member tree, whose leaf sits at slot 2;
the hypotheses of the general part are discharged there concretely. -/
theorem claim_C7_witness :
    [memA] ≠ [] ∧
    ∃ t, buildMerkleTree [memA] = .ok t ∧ t.indexOf memA.address = some 2 ∧
      ∃ K, 1 ≤ K ∧ t.hashes.getD 0 .undef = .num (2 ^ K) ∧
        getPath [memA] memA.address =
          .ok ((List.range K).map
            (fun j => slotHexStr (t.hashes.getD ((2 >>> j) ^^^ 1) .undef))) :=
  ⟨by decide, _, rfl, rfl, claim_C7.1 [memA] memA.address _ 2 (by decide) rfl rfl⟩

/-- Claim C8: over a successfully built tree for a non-empty member list,
`getPath` throws the not-found error exactly when the address is absent from
the tree's `indexOf` map; absence coincides with no input member bearing that
address, and every present address yields a path without error. -/
theorem claim_C8 (ms : List MonoplasmaMember) (addr : String) (t : MTree)
    (hne : ms ≠ []) (hb : buildMerkleTree ms = .ok t) :
    (getPath ms addr = .threw (.notFound addr) ↔ t.indexOf addr = none) ∧
    (t.indexOf addr = none ↔ ∀ m ∈ ms, m.address ≠ addr) ∧
    (∀ i, t.indexOf addr = some i → ∃ p, getPath ms addr = .ok p) := by
  obtain ⟨K, hBO⟩ := build_ok_spec ms t hne hb
  refine ⟨⟨?_, ?_⟩, hBO.idxNone addr, ?_⟩
  · intro hthrew
    rcases hopt : t.indexOf addr with _ | i
    · rfl
    · rw [getPath_ok_of_present ms addr t K i hne hb hBO hopt] at hthrew
      exact nomatch hthrew
  · intro hnone
    exact getPath_notFound_of_absent ms addr t hne hb hnone
  · intro i hsome
    exact ⟨_, getPath_ok_of_present ms addr t K i hne hb hBO hsome⟩

/-- Witness for claim C8: the two-member tree and an address that belongs to
neither member. -/
theorem claim_C8_witness :
    msPair ≠ [] ∧
    ∃ t, buildMerkleTree msPair = .ok t ∧
      (getPath msPair addrAbsent = .threw (.notFound addrAbsent) ↔
        t.indexOf addrAbsent = none) :=
  ⟨by decide, _, rfl, (claim_C8 msPair addrAbsent _ (by decide) rfl).1⟩

/-- Claim C9: `getProof` returns the empty path without error for a member
with zero earnings; for positive earnings it returns exactly the tree's
`getPath` for the member's address, and when such a member is present in a
successfully built tree the result is a real path, not an error. -/
theorem claim_C9 :
    (∀ (m : MonoplasmaMember) (ms : List MonoplasmaMember),
      m.earnings = 0 → m.getProof ms = .ok []) ∧
    (∀ (m : MonoplasmaMember) (ms : List MonoplasmaMember),
      0 < m.earnings → m.getProof ms = getPath ms m.address) ∧
    (∀ (m : MonoplasmaMember) (ms : List MonoplasmaMember) (t : MTree) (i : Nat),
      0 < m.earnings → ms ≠ [] → buildMerkleTree ms = .ok t →
      t.indexOf m.address = some i → ∃ p, m.getProof ms = .ok p) := by
  refine ⟨?_, ?_, ?_⟩
  · intro m ms h0
    simp only [MonoplasmaMember.getProof]
    rw [if_neg (by omega)]
  · intro m ms hpos
    simp only [MonoplasmaMember.getProof]
    rw [if_pos hpos]
  · intro m ms t i hpos hne hb hidx
    obtain ⟨K, hBO⟩ := build_ok_spec ms t hne hb
    have hp : m.getProof ms = getPath ms m.address := by
      simp only [MonoplasmaMember.getProof]
      rw [if_pos hpos]
    exact ⟨_, hp.trans (getPath_ok_of_present ms m.address t K i hne hb hBO hidx)⟩

/-- Witness for claim C9: the zero-earnings member gets the empty path; a
positive-earnings member is routed to `getPath`. -/
theorem claim_C9_witness :
    (memZero.earnings = 0 ∧ memZero.getProof msPair = .ok []) ∧
    (0 < memA.earnings ∧ memA.getProof msPair = getPath msPair memA.address) :=
  ⟨⟨rfl, claim_C9.1 memZero msPair rfl⟩, ⟨by decide, claim_C9.2.1 memA msPair (by decide)⟩⟩

end DataUnion
